import Mathlib

/-!
Verification development for the protoc-gen-sphere-binding repository.

Go strings are modelled as lists of characters (`Str`); Go byte-level
scanning coincides with character-level scanning on the ASCII data this
program manipulates.  The repository contains two historical variants of
the tagger; the later variant (global `noJsonBinding` map, binding
aliases, change detection, atomic writer) is the one embedded here, as it
is the variant the claims cite.
-/

deriving instance DecidableEq for Except

namespace Sphere

abbrev Str := List Char

/-- Character constants, named to keep delimiter characters out of literals. -/
def quoteChar : Char := Char.ofNat 34

def backslashChar : Char := Char.ofNat 92

def backtickChar : Char := Char.ofNat 96

def newlineChar : Char := Char.ofNat 10

def delChar : Char := Char.ofNat 127

/-- One struct-tag entry, mirroring `structtag.Tag` (Key, Name, Options). -/
structure Tag where
  key : Str
  name : Str
  options : List Str
deriving DecidableEq, Repr

/-- `structtag.Tags` is a slice of tags; modelled as a list. -/
abbrev Tags := List Tag

/-- The mutating core of `structtag.Tags.Set`: replace every entry whose
key matches (keeping its position), otherwise append at the end. -/
def Tags.setRaw (ts : Tags) (t : Tag) : Tags :=
  if ts.any (fun u => u.key = t.key) then
    ts.map (fun u => if u.key = t.key then t else u)
  else ts ++ [t]

/-- `structtag.Tags.Set` with its error ignored (`_ = fieldTags.Set(...)`):
an empty key leaves the receiver untouched. -/
def Tags.set0 (ts : Tags) (t : Tag) : Tags :=
  if t.key = [] then ts else Tags.setRaw ts t

/-- `structtag.Tags.Set` with the error propagated, as used by
`reTagsInternal`. -/
def Tags.setE (ts : Tags) (t : Tag) : Except Str Tags :=
  if t.key = [] then .error "tag key cannot be empty".toList else .ok (Tags.setRaw ts t)

/-- `strings.Join(parts, ",")`. -/
def joinComma : List Str → Str
  | [] => []
  | [s] => s
  | s :: rest => s ++ ',' :: joinComma rest

/-- `structtag.Tag.String`: `key:"name"` or `key:"name,opt1,opt2"`.
The value is emitted verbatim (the Go library does not escape it). -/
def Tag.text (t : Tag) : Str :=
  if joinComma t.options ≠ [] then
    t.key ++ ':' :: quoteChar :: (t.name ++ ',' :: joinComma t.options) ++ [quoteChar]
  else
    t.key ++ ':' :: quoteChar :: t.name ++ [quoteChar]

/-- `structtag.Tags.String`: entries joined by single spaces. -/
def Tags.serialize : Tags → Str
  | [] => []
  | [t] => Tag.text t
  | t :: rest => Tag.text t ++ ' ' :: Tags.serialize rest

/-- A key character for the tag scanner: printable, not a colon, quote or
DEL (mirrors the byte test in `structtag.Parse`). -/
def isKeyChar (c : Char) : Bool :=
  decide (' ' < c ∧ c ≠ ':' ∧ c ≠ quoteChar ∧ c ≠ delChar)

/-- Scan the interior of a quoted tag value: consume up to the first
unescaped quote, returning the interior and the remainder.  `none` when
the closing quote is missing (errTagValueSyntax). -/
def scanQuoted : Str → Option (Str × Str)
  | [] => none
  | c :: rest =>
    if c = quoteChar then some ([], rest)
    else if c = backslashChar then
      match rest with
      | [] => none
      | c2 :: rest2 => (scanQuoted rest2).map (fun p => (c :: c2 :: p.1, p.2))
    else (scanQuoted rest).map (fun p => (c :: p.1, p.2))

/-- The escape-sequence subset of `strconv.Unquote` that tag values use
(backslash, quote, newline, tab escapes; literal newlines rejected).
Exotic escape forms are rejected rather than decoded; no theorem below
evaluates the parser on such input. -/
def unquote : Str → Option Str
  | [] => some []
  | c :: rest =>
    if c = backslashChar then
      match rest with
      | [] => none
      | c2 :: rest2 =>
        if c2 = backslashChar then (unquote rest2).map (backslashChar :: ·)
        else if c2 = quoteChar then (unquote rest2).map (quoteChar :: ·)
        else if c2 = 'n' then (unquote rest2).map (newlineChar :: ·)
        else if c2 = 't' then (unquote rest2).map ('\t' :: ·)
        else none
    else if c = newlineChar then none
    else (unquote rest).map (c :: ·)

/-- `strings.Split(value, ",")`. -/
def splitComma : Str → List Str
  | [] => [[]]
  | c :: rest =>
    if c = ',' then [] :: splitComma rest
    else
      match splitComma rest with
      | [] => [[c]]
      | s :: ss => (c :: s) :: ss

/-- `structtag.Parse`, fuel-indexed (one unit of fuel per scanned entry, so
`length + 1` always suffices).  The library quirk by which an all-blank
nonempty input returns a nil Tags pointer (and panics downstream) is not
modelled; no theorem below feeds the parser a blank nonempty string. -/
def parseTagsFuel : Nat → Str → Except Str (List Tag)
  | 0, _ => .error "out of fuel".toList
  | fuel + 1, s =>
    let s1 := s.dropWhile (fun c => c = ' ')
    if s1 = [] then .ok []
    else
      let key := s1.takeWhile isKeyChar
      let rest := s1.dropWhile isKeyChar
      if key = [] then .error "bad tag syntax".toList
      else
        match rest with
        | c1 :: c2 :: vrest =>
          if c1 = ':' ∧ c2 = quoteChar then
            match scanQuoted vrest with
            | none => .error "bad tag value syntax".toList
            | some (val, rem) =>
              match unquote val with
              | none => .error "bad tag value syntax".toList
              | some value =>
                let parts := splitComma value
                match parseTagsFuel fuel rem with
                | .ok acc => .ok (⟨key, parts.headD [], parts.tailD []⟩ :: acc)
                | .error e => .error e
          else .error "bad tag syntax".toList
        | _ => .error "bad tag syntax".toList

def parseTags (s : Str) : Except Str (List Tag) :=
  parseTagsFuel (s.length + 1) s

/-- Stable insertion of a tag into a key-sorted list: the new element goes
after existing entries with keys less than or equal to its own. -/
def insertTag (t : Tag) : Tags → Tags
  | [] => [t]
  | u :: us => if decide (u.key ≤ t.key) then u :: insertTag t us else t :: u :: us

/-- `sort.Stable` with `Less` comparing keys, as applied to the planned
tags in `reTagsInternal`.  A stable sort's output is uniquely determined
by the comparator, so this insertion sort coincides with Go's sort. -/
def sortTags (ts : Tags) : Tags :=
  ts.foldl (fun acc t => insertTag t acc) []

/-- The `sphere.binding.BindingLocation` proto enumeration
(`BINDING_LOCATION_` name stem dropped). -/
inductive BindingLocation where
  | UNSPECIFIED
  | BODY
  | QUERY
  | URI
  | FORM
  | HEADER
deriving DecidableEq, Repr

/-- The package-level `noJsonBinding` map of the later tagger variant:
location to struct-tag key. -/
def noJsonBinding (l : BindingLocation) : Option Str :=
  match l with
  | .QUERY => some "query".toList
  | .URI => some "uri".toList
  | .FORM => some "form".toList
  | .HEADER => some "header".toList
  | _ => none

/-- Plugin configuration (`Config` of the later variant); the alias map is
an association list with first-match lookup. -/
structure Config where
  autoRemoveJson : Bool
  bindingAliases : List (Str × List Str)
deriving DecidableEq, Repr

def lookupAliases (al : List (Str × List Str)) (k : Str) : Option (List Str) :=
  (al.find? (fun p => p.1 = k)).map (fun p => p.2)

/-- `getLocationAndAutoTags`: replace each inherited component exactly when
the corresponding option is present. -/
def getLocationAndAutoTags (hasLocation : Bool) (locationValue : BindingLocation)
    (hasAutoTags : Bool) (autoTagsValue : List Str)
    (defaultLocation : BindingLocation) (defaultAutoTags : List Str) :
    BindingLocation × List Str :=
  (if hasLocation then locationValue else defaultLocation,
   if hasAutoTags then autoTagsValue else defaultAutoTags)

/-- A schema field: proto name (`Desc.Name`), Go name, and the three
field-scope extension options, each absent or present. -/
structure FieldNode where
  name : Str
  goName : Str
  location : Option BindingLocation
  autoTags : Option (List Str)
  tags : Option (List Str)
deriving DecidableEq, Repr

/-- A oneof group with its two default-override options and its fields. -/
structure OneofNode where
  location : Option BindingLocation
  autoTags : Option (List Str)
  fields : List FieldNode
deriving DecidableEq, Repr

mutual
/-- A protobuf message: Go identifier, the two message-scope options,
fields, oneofs and nested messages. -/
inductive MessageNode where
  | mk (goName : Str) (defaultLocation : Option BindingLocation)
      (defaultAutoTags : Option (List Str)) (fields : List FieldNode)
      (oneofs : List OneofNode) (nested : MessageList)

inductive MessageList where
  | nil
  | cons (head : MessageNode) (tail : MessageList)
end

/-- The pair `getLocationAndAutoTags` computes at a single node carrying an
optional location and optional auto-tag option (`HasExtension` /
`GetExtension` modelled by the `Option`). -/
def applyNodeOptions (inherited : BindingLocation × List Str)
    (optLoc : Option BindingLocation) (optTags : Option (List Str)) :
    BindingLocation × List Str :=
  getLocationAndAutoTags optLoc.isSome (optLoc.getD .UNSPECIFIED)
    optTags.isSome (optTags.getD []) inherited.1 inherited.2

/-- The inheritance state threaded along a root-to-node chain of option
carriers, starting from `(UNSPECIFIED, [])` at the root. -/
def resolveChain (chain : List (Option BindingLocation × Option (List Str))) :
    BindingLocation × List Str :=
  chain.foldl (fun acc n => applyNodeOptions acc n.1 n.2) (.UNSPECIFIED, [])

/-- The effective pair used for a field (tagger lines resolving the
field-scope options against the inherited pair). -/
def fieldEffectivePair (field : FieldNode) (inherited : BindingLocation × List Str) :
    BindingLocation × List Str :=
  applyNodeOptions inherited field.location field.autoTags

/-- The auto-tag loop of `extractField`: set `(key, fieldName)` for every
nonempty key, in order. -/
def addAutoTags (fieldName : Str) (autoTags : List Str) (ts : Tags) : Tags :=
  autoTags.foldl
    (fun acc tag => if tag.length > 0 then Tags.set0 acc ⟨tag, fieldName, []⟩ else acc) ts

/-- The sphere-binding section of `extractField`: the location-derived tag,
its configured aliases, and the `json:"-"` removal entry. -/
def addBindingTags (fieldName : Str) (location : BindingLocation) (config : Config)
    (ts : Tags) : Tags :=
  match noJsonBinding location with
  | none => ts
  | some tag =>
    let ts :=
      if tag.length > 0 then
        let ts := Tags.set0 ts ⟨tag, fieldName, []⟩
        match lookupAliases config.bindingAliases tag with
        | some aliases =>
          aliases.foldl
            (fun acc al =>
              if al.length > 0 then Tags.set0 acc ⟨al, fieldName, []⟩ else acc) ts
        | none => ts
      else ts
    if config.autoRemoveJson then Tags.set0 ts ⟨"json".toList, "-".toList, []⟩ else ts

/-- The manual-tag section of `extractField`: parse each nonempty fragment
and set every parsed entry, propagating parse errors. -/
def addManualTags (fragments : List Str) (ts : Tags) : Except Str Tags :=
  match fragments with
  | [] => .ok ts
  | fr :: rest =>
    if fr.length = 0 then addManualTags rest ts
    else
      match parseTags fr with
      | .error e => .error e
      | .ok parsed => addManualTags rest (parsed.foldl Tags.set0 ts)

/-- `extractField`: resolve the field's effective pair, then auto tags,
binding tags, manual tags. -/
def extractField (field : FieldNode) (location : BindingLocation)
    (autoTags : List Str) (config : Config) : Except Str Tags :=
  let p := fieldEffectivePair field (location, autoTags)
  let fieldTags := addAutoTags field.name p.2 []
  let fieldTags := addBindingTags field.name p.1 config fieldTags
  addManualTags (field.tags.getD []) fieldTags

/-- Per-struct field plan: Go field name to its planned tags. -/
abbrev FieldTagsMap := List (Str × Tags)

/-- `StructTags`: struct name to field plan. Go's maps are modelled as
association lists with overwrite-on-insert; the claims only ever look
maps up by key, so the list order is immaterial. -/
abbrev StructTags := List (Str × FieldTagsMap)

def upsert {α : Type} (m : List (Str × α)) (k : Str) (v : α) : List (Str × α) :=
  if m.any (fun p => p.1 = k) then
    m.map (fun p => if p.1 = k then (k, v) else p)
  else m ++ [(k, v)]

def lookupMap {α : Type} (m : List (Str × α)) (k : Str) : Option α :=
  (m.find? (fun p => p.1 = k)).map (fun p => p.2)

/-- `maps.Copy(dst, src)`. -/
def mapsCopy (dst src : StructTags) : StructTags :=
  src.foldl (fun d kv => upsert d kv.1 kv.2) dst

/-- The direct-field loop of `extractMessage`. -/
def extractFields (fields : List FieldNode) (location : BindingLocation)
    (autoTags : List Str) (config : Config) (acc : FieldTagsMap) :
    Except Str FieldTagsMap :=
  match fields with
  | [] => .ok acc
  | f :: rest =>
    match extractField f location autoTags config with
    | .error e => .error e
    | .ok ft =>
      extractFields rest location autoTags config
        (if ft.length > 0 then upsert acc f.goName ft else acc)

/-- The oneof loop of `extractMessage`: each group resolves its own default
pair against the message pair, then its fields are processed with it. -/
def extractOneofs (oneofs : List OneofNode) (location : BindingLocation)
    (autoTags : List Str) (config : Config) (acc : FieldTagsMap) :
    Except Str FieldTagsMap :=
  match oneofs with
  | [] => .ok acc
  | o :: rest =>
    let p := applyNodeOptions (location, autoTags) o.location o.autoTags
    match extractFields o.fields p.1 p.2 config acc with
    | .error e => .error e
    | .ok acc2 => extractOneofs rest location autoTags config acc2

mutual
/-- `extractMessage`: resolve the message pair, process fields, oneofs and
nested messages, then record the message's own plan under its Go name. -/
def extractMessage (m : MessageNode) (location : BindingLocation)
    (autoTags : List Str) (config : Config) : Except Str StructTags :=
  match m with
  | .mk goName dLoc dAuto fields oneofs nested =>
    let p := applyNodeOptions (location, autoTags) dLoc dAuto
    match extractFields fields p.1 p.2 config [] with
    | .error e => .error e
    | .ok mt =>
      match extractOneofs oneofs p.1 p.2 config mt with
      | .error e => .error e
      | .ok messageTags =>
        match extractMessageList nested p.1 p.2 config [] with
        | .error e => .error e
        | .ok nestedTags => .ok (upsert nestedTags goName messageTags)

def extractMessageList (ms : MessageList) (location : BindingLocation)
    (autoTags : List Str) (config : Config) (acc : StructTags) :
    Except Str StructTags :=
  match ms with
  | .nil => .ok acc
  | .cons m tail =>
    match extractMessage m location autoTags config with
    | .error e => .error e
    | .ok e => extractMessageList tail location autoTags config (mapsCopy acc e)
end

/-- One schema unit as handed over by protogen: the generated filename stem
(protogen's generated-filename prefix) and the top-level messages. -/
structure ProtoFile where
  filenameStem : Str
  messages : MessageList

/-- The top-level message loop of `extractFile`, keeping only nonempty
per-struct plans. -/
def extractTopMessages (ms : MessageList) (config : Config) (acc : StructTags) :
    Except Str StructTags :=
  match ms with
  | .nil => .ok acc
  | .cons m tail =>
    match extractMessage m .UNSPECIFIED [] config with
    | .error e => .error e
    | .ok e =>
      extractTopMessages tail config
        (e.foldl (fun d kv => if kv.2.length > 0 then upsert d kv.1 kv.2 else d) acc)

def extractFile (file : ProtoFile) (config : Config) : Except Str StructTags :=
  extractTopMessages file.messages config []

/-! ### The declaration locator and merger (`reTagsInternal`) -/

/-- A struct field in the parsed generated source: its name list and its
optional tag literal (backticks included, as in `ast.BasicLit.Value`). -/
structure AstField where
  names : List Str
  tag : Option Str
deriving DecidableEq, Repr

structure StructDecl where
  name : Str
  fields : List AstField
deriving DecidableEq, Repr

/-- A top-level declaration: either a type declaration whose first spec is
a struct type, or anything else (skipped by the merger). -/
inductive Decl where
  | structDecl (s : StructDecl)
  | other
deriving DecidableEq, Repr

/-- `strings.Trim(value, backtick)`: strip every leading and trailing
backtick. -/
def trimBackticks (s : Str) : Str :=
  ((s.dropWhile (fun c => c = backtickChar)).reverse.dropWhile
    (fun c => c = backtickChar)).reverse

/-- The planned-entry loop of `reTagsInternal`: set each entry of the
(already sorted) plan into the existing entries, propagating `Set`
errors. -/
def mergeSortedInto (acc : Tags) : Tags → Except Str Tags
  | [] => .ok acc
  | t :: rest =>
    match Tags.setE acc t with
    | .error e => .error e
    | .ok acc2 => mergeSortedInto acc2 rest

/-- Merge a field's planned entries into its existing entries:
`sort.Stable` on the plan, then set each entry. -/
def mergePlanned (oldTags newTags : Tags) : Except Str Tags :=
  mergeSortedInto oldTags (sortTags newTags)

/-- Merge the planned tags into one field's current tag literal: parse the
existing entries, stably sort the plan by key, set every planned entry,
and report whether the serialized text changed. Returns the new literal
(with backticks) and the change flag. -/
def mergeFieldTag (tagValue : Str) (newTags : Tags) : Except Str (Str × Bool) :=
  match parseTags (trimBackticks tagValue) with
  | .error e => .error e
  | .ok oldTags =>
    let originalTagValue := Tags.serialize oldTags
    match mergePlanned oldTags newTags with
    | .error e => .error e
    | .ok merged =>
      let newTagValue := Tags.serialize merged
      .ok (backtickChar :: newTagValue ++ [backtickChar],
           decide (originalTagValue ≠ newTagValue))

/-- The loop over one field's name list: each name found in the plan merges
that name's planned tags into the (shared) tag literal. -/
def reTagsNames (plan : FieldTagsMap) (names : List Str) (tagVal : Option Str) :
    Except Str (Option Str × Bool) :=
  match names with
  | [] => .ok (tagVal, false)
  | n :: rest =>
    match lookupMap plan n with
    | none => reTagsNames plan rest tagVal
    | some newTags =>
      match mergeFieldTag (tagVal.getD []) newTags with
      | .error e => .error e
      | .ok (v, ch) =>
        match reTagsNames plan rest (some v) with
        | .error e => .error e
        | .ok (v2, ch2) => .ok (v2, ch || ch2)

def reTagsField (plan : FieldTagsMap) (f : AstField) : Except Str (AstField × Bool) :=
  match reTagsNames plan f.names f.tag with
  | .error e => .error e
  | .ok (t, ch) => .ok (⟨f.names, t⟩, ch)

def reTagsFields (plan : FieldTagsMap) (fields : List AstField) :
    Except Str (List AstField × Bool) :=
  match fields with
  | [] => .ok ([], false)
  | f :: rest =>
    match reTagsField plan f with
    | .error e => .error e
    | .ok (f1, ch1) =>
      match reTagsFields plan rest with
      | .error e => .error e
      | .ok (rest1, ch2) => .ok (f1 :: rest1, ch1 || ch2)

/-- The declaration loop of `reTagsInternal`: declarations that are not
struct types, or whose name is absent from the plan, pass through
untouched. -/
def reTagsDecls (tags : StructTags) (decls : List Decl) :
    Except Str (List Decl × Bool) :=
  match decls with
  | [] => .ok ([], false)
  | .other :: rest =>
    match reTagsDecls tags rest with
    | .error e => .error e
    | .ok (r, ch) => .ok (.other :: r, ch)
  | .structDecl s :: rest =>
    match lookupMap tags s.name with
    | none =>
      match reTagsDecls tags rest with
      | .error e => .error e
      | .ok (r, ch) => .ok (.structDecl s :: r, ch)
    | some plan =>
      match reTagsFields plan s.fields with
      | .error e => .error e
      | .ok (fs1, ch1) =>
        match reTagsDecls tags rest with
        | .error e => .error e
        | .ok (r, ch2) => .ok (.structDecl ⟨s.name, fs1⟩ :: r, ch1 || ch2)

def reTagsInternal (file : List Decl) (tags : StructTags) :
    Except Str (List Decl × Bool) :=
  reTagsDecls tags file

/-- `ReTagsWithCheck`: the merge with change detection (the `changed`
out-parameter becomes the returned flag, initialized to false). -/
def ReTagsWithCheck (file : List Decl) (tags : StructTags) :
    Except Str (List Decl × Bool) :=
  reTagsInternal file tags

/-! ### Target-path computation and the `generateFile` pipeline -/

/-- Split a path on slashes. -/
def splitSlash : Str → List Str
  | [] => [[]]
  | c :: rest =>
    if c = '/' then [] :: splitSlash rest
    else
      match splitSlash rest with
      | [] => [[c]]
      | s :: ss => (c :: s) :: ss

def cleanStep (rooted : Bool) (acc : List Str) (seg : Str) : List Str :=
  if seg = [] ∨ seg = ".".toList then acc
  else if seg = "..".toList then
    match acc with
    | [] => if rooted then [] else [seg]
    | top :: rest => if top = "..".toList then seg :: acc else rest
  else seg :: acc

/-- `filepath.Clean` (lexical, forward-slash separators). -/
def filepathClean (p : Str) : Str :=
  if p = [] then ".".toList
  else
    let rooted := p.head? = some '/'
    let segs := ((splitSlash p).foldl (cleanStep rooted) []).reverse
    let out := List.intercalate ['/'] segs
    if rooted then '/' :: out
    else if out = [] then ".".toList
    else out

/-- `filepath.Join` of two elements: empty elements dropped, result
cleaned. -/
def filepathJoin (a b : Str) : Str :=
  if a = [] then (if b = [] then [] else filepathClean b)
  else if b = [] then filepathClean a
  else filepathClean (a ++ '/' :: b)

/-- What the filesystem holds at the computed target path. -/
inductive TargetState where
  | missing
  | unparsable
  | parsed (decls : List Decl)
deriving DecidableEq, Repr

/-- File I/O performed on the target path, in order: `os.Stat`,
`parser.ParseFile`, and the atomic write of the merged declarations. -/
inductive IOEvent where
  | statEv
  | parseEv
  | writeEv (decls : List Decl)
deriving DecidableEq, Repr

/-- `generateFile`: extraction, the empty-plan early return, the
path-traversal check, then stat / parse / merge, with the atomic write
gated on the change flag.  Returned alongside the result is the list of
I/O actions performed on the target file. -/
def generateFile (file : ProtoFile) (out : Str) (config : Config)
    (target : TargetState) : Except Str Unit × List IOEvent :=
  match extractFile file config with
  | .error e => (.error e, [])
  | .ok tags =>
    if tags.length = 0 then (.ok (), [])
    else
      let out := filepathClean out
      let filename := filepathJoin out (file.filenameStem ++ ".pb.go".toList)
      if ¬ (out.isPrefixOf (filepathClean filename)) then
        (.error "invalid file path: potential path traversal".toList, [])
      else
        match target with
        | .missing => (.error "stat: no such file or directory".toList, [.statEv])
        | .unparsable => (.error "source parse failure".toList, [.statEv, .parseEv])
        | .parsed decls =>
          match ReTagsWithCheck decls tags with
          | .error e => (.error e, [.statEv, .parseEv])
          | .ok (newDecls, changed) =>
            if changed then (.ok (), [.statEv, .parseEv, .writeEv newDecls])
            else (.ok (), [.statEv, .parseEv])

/-! ### Specification-side definitions and decidable predicates -/

/-- The specification's reading of inheritance: the value of the innermost
explicit option along the chain, or the default when none is explicit. -/
def nearestExplicit {α : Type} (dflt : α) (opts : List (Option α)) : α :=
  ((opts.filterMap id).getLast?).getD dflt

/-- The concatenation of the parses of a field's nonempty manual-tag
fragments, in order: exactly the entries the manual-tag loop of
`extractField` sets, in the order it sets them. -/
def manualTagList (fragments : List Str) : Except Str (List Tag) :=
  match fragments with
  | [] => .ok []
  | fr :: rest =>
    if fr.length = 0 then manualTagList rest
    else
      match parseTags fr with
      | .error e => .error e
      | .ok parsed =>
        match manualTagList rest with
        | .error e => .error e
        | .ok l => .ok (parsed ++ l)

def isWriteEv : IOEvent → Bool
  | .writeEv _ => true
  | _ => false

/-- A manual-tag fragment that the manual-tag loop will reject: nonempty
and unparsable. -/
def fieldHasBadManual (f : FieldNode) : Bool :=
  (f.tags.getD []).any fun fr => decide (fr.length ≠ 0) && !(parseTags fr).isOk

mutual
def hasBadManualMsg : MessageNode → Bool
  | .mk _ _ _ fields oneofs nested =>
    fields.any fieldHasBadManual ||
    oneofs.any (fun o => o.fields.any fieldHasBadManual) ||
    hasBadManualList nested

def hasBadManualList : MessageList → Bool
  | .nil => false
  | .cons m tail => hasBadManualMsg m || hasBadManualList tail
end

def hasBadManualFile (f : ProtoFile) : Bool :=
  hasBadManualList f.messages

/-- A declaration field the merger will abort on: its existing tag literal
does not parse and at least one of its names is in the field plan. -/
def fieldMatchedBad (plan : FieldTagsMap) (f : AstField) : Bool :=
  !(parseTags (trimBackticks (f.tag.getD []))).isOk &&
    f.names.any fun n => (lookupMap plan n).isSome

def structHasBadField (plan : FieldTagsMap) (s : StructDecl) : Bool :=
  s.fields.any (fieldMatchedBad plan)

def declsBad (tags : StructTags) (decls : List Decl) : Bool :=
  decls.any fun d =>
    match d with
    | .structDecl s =>
      match lookupMap tags s.name with
      | some plan => structHasBadField plan s
      | none => false
    | .other => false

/-- A tag-key character that both the scanner accepts and the backtick
trimming of the merge loop leaves alone. -/
def validTagKeyChar (c : Char) : Bool :=
  decide (' ' < c ∧ c ≠ ':' ∧ c ≠ quoteChar ∧ c ≠ delChar ∧ c ≠ backtickChar)

/-- A value character the serialize/parse pair transports verbatim. -/
def goodValChar (c : Char) : Bool :=
  decide (c ≠ quoteChar ∧ c ≠ backslashChar ∧ c ≠ newlineChar ∧ c ≠ ',')

/-- A tag entry whose serialization parses back to itself. -/
def wfTag (t : Tag) : Bool :=
  decide (t.key ≠ []) && t.key.all validTagKeyChar && t.name.all goodValChar &&
    t.options.all (fun o => o.all goodValChar) && decide (t.options ≠ [[]])

def wfTags (ts : Tags) : Bool :=
  ts.all wfTag && decide ((ts.map Tag.key).Nodup)

/-- An annotation literal whose content parses into well-formed entries. -/
def wfTagText (v : Str) : Bool :=
  match parseTags (trimBackticks v) with
  | .ok old => old.all wfTag
  | .error _ => false

def wfFieldTagsMap (fm : FieldTagsMap) : Bool :=
  fm.all fun kv => wfTags kv.2

def wfStructTags (tags : StructTags) : Bool :=
  tags.all fun kv => wfFieldTagsMap kv.2

def singleNamesDecls (decls : List Decl) : Bool :=
  decls.all fun d =>
    match d with
    | .structDecl s => s.fields.all fun f => decide (f.names.length ≤ 1)
    | .other => true

def wfDeclTags (decls : List Decl) : Bool :=
  decls.all fun d =>
    match d with
    | .structDecl s =>
      s.fields.all fun f =>
        match f.tag with
        | some v => wfTagText v
        | none => true
    | .other => true

/-- A source tree for C2: one struct `S` with one untagged field `F`. -/
def c2CxDecls : List Decl := [.structDecl ⟨['S'], [⟨[['F']], none⟩]⟩]

/-- A plan whose single entry carries the key `a b` (a space inside the
key), as an `auto_tags` option can produce. -/
def c2CxTags : StructTags := [(['S'], [(['F'], [⟨['a', ' ', 'b'], ['x'], []⟩])])]

/-- A well-formed plan for the C2 witness: key `query`, value `x`. -/
def c2WitTags : StructTags := [(['S'], [(['F'], [⟨['q', 'u', 'e', 'r', 'y'], ['x'], []⟩])])]

/-- The first-run output on `c2CxDecls`/`c2CxTags`: the field is tagged
with the space-keyed literal, which no longer parses. -/
def c2CxDecls1 : List Decl :=
  [.structDecl ⟨['S'], [⟨[['F']],
    some [backtickChar, 'a', ' ', 'b', ':', quoteChar, 'x', quoteChar, backtickChar]⟩]⟩]

/-- The first-run output on `c2CxDecls`/`c2WitTags`: the field tagged
with the well-formed literal for `query`. -/
def c2WitDecls1 : List Decl :=
  [.structDecl ⟨['S'], [⟨[['F']],
    some [backtickChar, 'q', 'u', 'e', 'r', 'y', ':', quoteChar, 'x', quoteChar,
      backtickChar]⟩]⟩]

/-! ### Resolver lemmas (claim C1) -/

theorem applyNodeOptions_eq (init : BindingLocation × List Str)
    (o1 : Option BindingLocation) (o2 : Option (List Str)) :
    applyNodeOptions init o1 o2 = (o1.getD init.1, o2.getD init.2) := by
  cases o1 <;> cases o2 <;> rfl

theorem nearestExplicit_cons {α : Type} (d : α) (o : Option α) (l : List (Option α)) :
    nearestExplicit d (o :: l) = nearestExplicit (o.getD d) l := by
  cases o with
  | none => simp [nearestExplicit]
  | some v =>
    simp only [nearestExplicit, List.filterMap_cons, id]
    cases h : (l.filterMap id) with
    | nil => simp [h]
    | cons a as =>
      simp only [h, List.getLast?_cons_cons]
      rw [List.getLast?_eq_getLast _ (by simp)]
      rfl

theorem resolveChain_aux (chain : List (Option BindingLocation × Option (List Str)))
    (init : BindingLocation × List Str) :
    chain.foldl (fun acc n => applyNodeOptions acc n.1 n.2) init =
      (nearestExplicit init.1 (chain.map Prod.fst),
       nearestExplicit init.2 (chain.map Prod.snd)) := by
  induction chain generalizing init with
  | nil => simp [nearestExplicit]
  | cons hd tl ih =>
    simp only [List.foldl_cons, List.map_cons]
    rw [ih, applyNodeOptions_eq, nearestExplicit_cons, nearestExplicit_cons]

theorem resolveChain_append_single
    (chain : List (Option BindingLocation × Option (List Str)))
    (x : Option BindingLocation × Option (List Str)) :
    resolveChain (chain ++ [x]) = applyNodeOptions (resolveChain chain) x.1 x.2 := by
  simp [resolveChain, List.foldl_append]

/-- C1: for every field, the effective pair the resolver computes equals
the innermost explicit option along the ancestor chain extended by the
field's own options — field over group over message over ancestors — and
is `(UNSPECIFIED, [])` when no explicit option exists anywhere; location
and auto-tag components resolve independently. -/
theorem c1_inheritance_precedence
    (chain : List (Option BindingLocation × Option (List Str))) (f : FieldNode) :
    fieldEffectivePair f (resolveChain chain) =
        resolveChain (chain ++ [(f.location, f.autoTags)]) ∧
      resolveChain (chain ++ [(f.location, f.autoTags)]) =
        (nearestExplicit .UNSPECIFIED
            ((chain ++ [(f.location, f.autoTags)]).map Prod.fst),
         nearestExplicit []
            ((chain ++ [(f.location, f.autoTags)]).map Prod.snd)) := by
  constructor
  · rw [resolveChain_append_single]; rfl
  · exact resolveChain_aux _ _

/-! ### Lemmas about `Tags.Set` -/

theorem mem_setRaw {ts : Tags} {u x : Tag} (h : x ∈ Tags.setRaw ts u) :
    x ∈ ts ∨ x = u := by
  unfold Tags.setRaw at h
  split at h
  · obtain ⟨y, hy, hxy⟩ := List.mem_map.mp h
    by_cases hk : y.key = u.key
    · rw [if_pos hk] at hxy
      exact Or.inr hxy.symm
    · rw [if_neg hk] at hxy
      exact Or.inl (hxy ▸ hy)
  · rcases List.mem_append.mp h with h1 | h2
    · exact Or.inl h1
    · exact Or.inr (List.mem_singleton.mp h2)

theorem setRaw_contains {ts : Tags} (t : Tag) :
    ∃ x ∈ Tags.setRaw ts t, x.key = t.key := by
  unfold Tags.setRaw
  split
  · next hany =>
    obtain ⟨y, hy, hk⟩ := List.any_eq_true.mp hany
    refine ⟨t, List.mem_map.mpr ⟨y, hy, ?_⟩, rfl⟩
    rw [if_pos (of_decide_eq_true hk)]
  · exact ⟨t, by simp, rfl⟩

theorem setRaw_holds {ts : Tags} (t : Tag) :
    ∀ x ∈ Tags.setRaw ts t, x.key = t.key → x = t := by
  intro x hx hk
  unfold Tags.setRaw at hx
  split at hx
  · obtain ⟨y, hy, hxy⟩ := List.mem_map.mp hx
    by_cases hyk : y.key = t.key
    · rw [if_pos hyk] at hxy
      exact hxy.symm
    · rw [if_neg hyk] at hxy
      exact absurd (hxy ▸ hk) hyk
  · next hany =>
    rcases List.mem_append.mp hx with ha | hb
    · exact absurd (List.any_eq_true.mpr ⟨x, ha, decide_eq_true hk⟩) hany
    · exact List.mem_singleton.mp hb

theorem set0_preserve {ts : Tags} {u t : Tag} (hne : u.key ≠ t.key)
    (hc : ∃ x ∈ ts, x.key = t.key) (hh : ∀ x ∈ ts, x.key = t.key → x = t) :
    (∃ x ∈ Tags.set0 ts u, x.key = t.key) ∧
      ∀ x ∈ Tags.set0 ts u, x.key = t.key → x = t := by
  unfold Tags.set0
  split
  · exact ⟨hc, hh⟩
  · constructor
    · obtain ⟨y, hy, hk⟩ := hc
      unfold Tags.setRaw
      split
      · refine ⟨y, List.mem_map.mpr ⟨y, hy, ?_⟩, hk⟩
        rw [if_neg (show ¬(y.key = u.key) from fun h => hne (h ▸ hk))]
      · exact ⟨y, List.mem_append.mpr (Or.inl hy), hk⟩
    · intro x hx hk
      rcases mem_setRaw hx with h1 | h2
      · exact hh x h1 hk
      · exact absurd (h2 ▸ hk) hne

theorem set0_self {ts : Tags} {t : Tag} (hk : t.key ≠ []) :
    (∃ x ∈ Tags.set0 ts t, x.key = t.key) ∧
      ∀ x ∈ Tags.set0 ts t, x.key = t.key → x = t := by
  unfold Tags.set0
  rw [if_neg hk]
  exact ⟨setRaw_contains t, setRaw_holds t⟩

/-- After setting a tag and then any run of tags avoiding its key, the
receiver still binds that key to exactly that tag. -/
theorem foldl_set0_preserve {t : Tag} :
    ∀ (l : List Tag), (∀ u ∈ l, u.key ≠ t.key) → ∀ {A : Tags},
    (∃ x ∈ A, x.key = t.key) → (∀ x ∈ A, x.key = t.key → x = t) →
    (∃ x ∈ l.foldl Tags.set0 A, x.key = t.key) ∧
      ∀ x ∈ l.foldl Tags.set0 A, x.key = t.key → x = t := by
  intro l
  induction l with
  | nil => intro _ A hc hh; exact ⟨hc, hh⟩
  | cons u rest ih =>
    intro hl A hc hh
    have hu : u.key ≠ t.key := hl u (by simp)
    obtain ⟨hc2, hh2⟩ := set0_preserve hu hc hh
    exact ih (fun v hv => hl v (by simp [hv])) hc2 hh2

/-- Let-free unfolding of one parser step, for rewriting in proofs. -/
theorem parseTagsFuel_succ (n : Nat) (s : Str) :
    parseTagsFuel (n + 1) s =
      (if (s.dropWhile (fun c => c = ' ')) = [] then .ok []
       else if (s.dropWhile (fun c => c = ' ')).takeWhile isKeyChar = [] then
         .error "bad tag syntax".toList
       else
         match (s.dropWhile (fun c => c = ' ')).dropWhile isKeyChar with
         | c1 :: c2 :: vrest =>
           if c1 = ':' ∧ c2 = quoteChar then
             match scanQuoted vrest with
             | none => .error "bad tag value syntax".toList
             | some (val, rem) =>
               match unquote val with
               | none => .error "bad tag value syntax".toList
               | some value =>
                 match parseTagsFuel n rem with
                 | .ok acc =>
                   .ok (⟨(s.dropWhile (fun c => c = ' ')).takeWhile isKeyChar,
                         (splitComma value).headD [],
                         (splitComma value).tailD []⟩ :: acc)
                 | .error e => .error e
           else .error "bad tag syntax".toList
         | _ => .error "bad tag syntax".toList) := by
  rfl

/-- Keys of tags produced by the tag parser are nonempty. -/
theorem parseTagsFuel_keys_nonempty :
    ∀ (fuel : Nat) (s : Str) (l : List Tag),
      parseTagsFuel fuel s = .ok l → ∀ u ∈ l, u.key ≠ [] := by
  intro fuel
  induction fuel with
  | zero => intro s l h; exact absurd h (by simp [parseTagsFuel])
  | succ n ih =>
    intro s l h u hu
    rw [parseTagsFuel_succ] at h
    split at h
    · cases h; cases hu
    · split at h
      · cases h
      · next hkey =>
        split at h
        · split at h
          · split at h
            · cases h
            · split at h
              · cases h
              · split at h
                · next heq =>
                  cases h
                  rcases List.mem_cons.mp hu with h1 | h2
                  · subst h1; exact hkey
                  · exact ih _ _ heq u h2
                · cases h
          · cases h
        · cases h

theorem parseTags_keys_nonempty {s : Str} {l : List Tag}
    (h : parseTags s = .ok l) : ∀ u ∈ l, u.key ≠ [] :=
  parseTagsFuel_keys_nonempty _ _ _ h

/-- Evaluating the manual-tag loop through the flat list of parsed
entries. -/
theorem addManualTags_eq :
    ∀ (frs : List Str) (L : List Tag), manualTagList frs = .ok L →
      ∀ (base : Tags), addManualTags frs base = .ok (L.foldl Tags.set0 base) := by
  intro frs
  induction frs with
  | nil =>
    intro L h base
    simp only [manualTagList] at h
    cases h
    rfl
  | cons fr rest ih =>
    intro L h base
    simp only [manualTagList] at h
    simp only [addManualTags]
    by_cases hlen : fr.length = 0
    · rw [if_pos hlen] at h ⊢
      exact ih L h base
    · rw [if_neg hlen] at h ⊢
      cases hp : parseTags fr with
      | error e => rw [hp] at h; cases h
      | ok parsed =>
        rw [hp] at h
        cases hm : manualTagList rest with
        | error e => rw [hm] at h; cases h
        | ok l0 =>
          rw [hm] at h
          cases h
          dsimp only
          rw [ih l0 hm, List.foldl_append]

theorem manualTagList_keys_nonempty :
    ∀ (frs : List Str) (L : List Tag), manualTagList frs = .ok L →
      ∀ u ∈ L, u.key ≠ [] := by
  intro frs
  induction frs with
  | nil =>
    intro L h u hu
    simp only [manualTagList] at h
    cases h; cases hu
  | cons fr rest ih =>
    intro L h u hu
    simp only [manualTagList] at h
    split at h
    · exact ih L h u hu
    · cases hp : parseTags fr with
      | error e => rw [hp] at h; cases h
      | ok parsed =>
        rw [hp] at h
        cases hm : manualTagList rest with
        | error e => rw [hm] at h; cases h
        | ok l0 =>
          rw [hm] at h
          cases h
          rcases List.mem_append.mp hu with h1 | h2
          · exact parseTags_keys_nonempty hp u h1
          · exact ih l0 hm u h2

/-- C4: a manual tag declared on a field for some key (its last manual
occurrence of that key) is what the field's final entry set binds that
key to, overriding any value set earlier by auto tags, the
location-derived tag, its aliases, or the json-removal entry. -/
theorem c4_manual_override_supremacy (f : FieldNode) (loc : BindingLocation)
    (ats : List Str) (config : Config) (L l1 l2 : List Tag) (t : Tag) (ts : Tags)
    (hm : manualTagList (f.tags.getD []) = .ok L)
    (hsplit : L = l1 ++ t :: l2)
    (hlast : ∀ u ∈ l2, u.key ≠ t.key)
    (hex : extractField f loc ats config = .ok ts) :
    (∃ x ∈ ts, x.key = t.key) ∧ ∀ x ∈ ts, x.key = t.key → x = t := by
  have hkey : t.key ≠ [] :=
    manualTagList_keys_nonempty _ L hm t (hsplit ▸ List.mem_append.mpr
      (Or.inr (List.mem_cons_self t l2)))
  unfold extractField at hex
  rw [addManualTags_eq _ L hm] at hex
  cases hex
  rw [hsplit, List.foldl_append, List.foldl_cons]
  exact foldl_set0_preserve l2 hlast (set0_self hkey).1 (set0_self hkey).2

/-- C4 witness: a field whose inherited location sets `query` to the field
name but whose manual fragment declares `query` bound to `y` ends with the
manual value. -/
theorem c4_witness :
    manualTagList [("query:".toList ++ quoteChar :: 'y' :: [quoteChar])] =
      .ok [⟨"query".toList, "y".toList, []⟩] ∧
    extractField
        ⟨"x".toList, "F".toList, none, none,
          some [("query:".toList ++ quoteChar :: 'y' :: [quoteChar])]⟩
        .QUERY [] ⟨true, []⟩ =
      .ok [⟨"query".toList, "y".toList, []⟩, ⟨"json".toList, "-".toList, []⟩] ∧
    ((∃ x ∈ [⟨"query".toList, "y".toList, []⟩, ⟨"json".toList, "-".toList, []⟩],
        Tag.key x = "query".toList) ∧
      ∀ x ∈ [⟨"query".toList, "y".toList, []⟩, ⟨"json".toList, "-".toList, []⟩],
        Tag.key x = "query".toList → x = ⟨"query".toList, "y".toList, []⟩) := by
  refine ⟨by decide, by decide, ?_⟩
  exact c4_manual_override_supremacy
    ⟨"x".toList, "F".toList, none, none,
      some [("query:".toList ++ quoteChar :: 'y' :: [quoteChar])]⟩
    .QUERY [] ⟨true, []⟩
    [⟨"query".toList, "y".toList, []⟩] [] []
    ⟨"query".toList, "y".toList, []⟩
    [⟨"query".toList, "y".toList, []⟩, ⟨"json".toList, "-".toList, []⟩]
    (by decide) (by decide) (by decide) (by decide)

/-! ### Sorting and merge lemmas (claims C3 and C5) -/

theorem insertTag_perm (t : Tag) : ∀ (l : Tags), (insertTag t l).Perm (t :: l) := by
  intro l
  induction l with
  | nil => rfl
  | cons u us ih =>
    unfold insertTag
    split
    · exact (ih.cons u).trans (List.Perm.swap t u us)
    · rfl

theorem sortTags_aux_perm :
    ∀ (l acc : Tags), (l.foldl (fun acc t => insertTag t acc) acc).Perm (l ++ acc) := by
  intro l
  induction l with
  | nil => intro acc; rfl
  | cons t rest ih =>
    intro acc
    have h1 := ih (insertTag t acc)
    have h2 : (rest ++ insertTag t acc).Perm (rest ++ t :: acc) :=
      (insertTag_perm t acc).append_left rest
    have h3 : (rest ++ t :: acc).Perm (t :: (rest ++ acc)) := List.perm_middle
    exact (h1.trans h2).trans h3

theorem sortTags_perm (ts : Tags) : (sortTags ts).Perm ts := by
  have := sortTags_aux_perm ts []
  simpa [sortTags] using this

theorem mem_sortTags {ts : Tags} {x : Tag} : x ∈ sortTags ts ↔ x ∈ ts :=
  (sortTags_perm ts).mem_iff

theorem filter_replaceKey {P : Tag → Bool} {u : Tag}
    (hP : ∀ x : Tag, x.key = u.key → P x = false) :
    ∀ ts : Tags,
      (ts.map (fun x => if x.key = u.key then u else x)).filter P = ts.filter P := by
  intro ts
  induction ts with
  | nil => rfl
  | cons y ys ih =>
    simp only [List.map_cons]
    by_cases hy : y.key = u.key
    · rw [if_pos hy]
      rw [List.filter_cons_of_neg (by rw [hP u rfl]; exact Bool.false_ne_true),
          List.filter_cons_of_neg (by rw [hP y hy]; exact Bool.false_ne_true)]
      exact ih
    · rw [if_neg hy]
      simp only [List.filter_cons, ih]

theorem filter_setRaw {P : Tag → Bool} {u : Tag}
    (hP : ∀ x : Tag, x.key = u.key → P x = false) (ts : Tags) :
    (Tags.setRaw ts u).filter P = ts.filter P := by
  unfold Tags.setRaw
  split
  · exact filter_replaceKey hP ts
  · rw [List.filter_append]
    rw [List.filter_cons_of_neg (by rw [hP u rfl]; exact Bool.false_ne_true)]
    simp

theorem mergeSortedInto_filter {P : Tag → Bool} :
    ∀ (sp old merged : Tags),
      (∀ u ∈ sp, ∀ x : Tag, x.key = u.key → P x = false) →
      mergeSortedInto old sp = .ok merged → merged.filter P = old.filter P := by
  intro sp
  induction sp with
  | nil =>
    intro old merged _ h
    cases h
    rfl
  | cons u rest ih =>
    intro old merged hP h
    simp only [mergeSortedInto] at h
    unfold Tags.setE at h
    by_cases hu : u.key = []
    · rw [if_pos hu] at h
      cases h
    · rw [if_neg hu] at h
      dsimp only at h
      have h2 := ih (Tags.setRaw old u) merged
        (fun v hv => hP v (List.mem_cons_of_mem u hv)) h
      rw [h2]
      exact filter_setRaw (hP u (List.mem_cons_self u rest)) old

/-- C3: entries of the existing annotation whose keys are absent from the
plan are present, unmodified and in their original relative order after
the merge. -/
theorem c3_merge_nondestructive (old plan merged : Tags)
    (h : mergePlanned old plan = .ok merged) :
    merged.filter (fun x => ! plan.any (fun u => u.key = x.key)) =
      old.filter (fun x => ! plan.any (fun u => u.key = x.key)) := by
  apply mergeSortedInto_filter (sortTags plan) old merged ?_ h
  intro u hu x hk
  have hu2 : u ∈ plan := mem_sortTags.mp hu
  have : plan.any (fun v => decide (v.key = x.key)) = true :=
    List.any_eq_true.mpr ⟨u, hu2, decide_eq_true hk.symm⟩
  rw [this]
  rfl

/-- C3 witness: merging a `query` plan into `validate:"r" query:"o"` keeps
the `validate` entry untouched in place. -/
theorem c3_witness :
    mergePlanned
        [⟨"validate".toList, "r".toList, []⟩, ⟨"query".toList, "o".toList, []⟩]
        [⟨"query".toList, "x".toList, []⟩] =
      .ok [⟨"validate".toList, "r".toList, []⟩, ⟨"query".toList, "x".toList, []⟩] ∧
    ([⟨"validate".toList, "r".toList, []⟩, ⟨"query".toList, "x".toList, []⟩] : Tags).filter
        (fun x => ! ([⟨"query".toList, "x".toList, []⟩] : Tags).any (fun u => u.key = x.key)) =
      ([⟨"validate".toList, "r".toList, []⟩, ⟨"query".toList, "o".toList, []⟩] : Tags).filter
        (fun x => ! ([⟨"query".toList, "x".toList, []⟩] : Tags).any (fun u => u.key = x.key)) :=
  ⟨by decide,
   c3_merge_nondestructive
     [⟨"validate".toList, "r".toList, []⟩, ⟨"query".toList, "o".toList, []⟩]
     [⟨"query".toList, "x".toList, []⟩]
     [⟨"validate".toList, "r".toList, []⟩, ⟨"query".toList, "x".toList, []⟩]
     (by decide)⟩

theorem any_key_map_replace {u : Tag} {k : Str} :
    ∀ (old : Tags),
      ((old.map (fun x => if x.key = u.key then u else x)).any
          (fun y => y.key = k)) =
        old.any (fun y => y.key = k) := by
  intro old
  induction old with
  | nil => rfl
  | cons y ys ih =>
    simp only [List.map_cons, List.any_cons, ih]
    by_cases hy : y.key = u.key
    · rw [if_pos hy, hy]
    · rw [if_neg hy]

theorem find?_eq_none_of_keys {k : Str} {l : Tags} (h : k ∉ l.map Tag.key) :
    l.find? (fun u => u.key = k) = none := by
  apply List.find?_eq_none.mpr
  intro x hx
  simp only [decide_eq_true_eq]
  intro he
  exact h (he ▸ List.mem_map_of_mem Tag.key hx)

/-- Full characterization of the planned-entry merge with a duplicate-free
sorted plan: existing entries keep their positions, each replaced by its
planned value when its key is planned; planned entries with fresh keys are
appended, in the sorted plan's order. -/
theorem mergeSortedInto_char :
    ∀ (sp old : Tags), (∀ u ∈ sp, u.key ≠ []) → ((sp.map Tag.key).Nodup) →
      mergeSortedInto old sp =
        .ok ((old.map fun x => (sp.find? (fun u => u.key = x.key)).getD x)
          ++ sp.filter fun u => ! old.any (fun x => x.key = u.key)) := by
  intro sp
  induction sp with
  | nil =>
    intro old _ _
    simp [mergeSortedInto]
  | cons u rest ih =>
    intro old hk hnd
    have hu : u.key ≠ [] := hk u (List.mem_cons_self u rest)
    have hnotin : u.key ∉ rest.map Tag.key := (List.nodup_cons.mp hnd).1
    have hndr : (rest.map Tag.key).Nodup := (List.nodup_cons.mp hnd).2
    simp only [mergeSortedInto]
    unfold Tags.setE
    rw [if_neg hu]
    dsimp only
    rw [ih (Tags.setRaw old u) (fun v hv => hk v (List.mem_cons_of_mem u hv)) hndr]
    unfold Tags.setRaw
    by_cases hany : old.any (fun x => x.key = u.key) = true
    · rw [if_pos hany]
      congr 1
      have hmap : ((old.map fun x => if x.key = u.key then u else x).map
            fun x => (rest.find? (fun v => v.key = x.key)).getD x) =
          old.map fun x => ((u :: rest).find? (fun v => v.key = x.key)).getD x := by
        rw [List.map_map]
        apply List.map_congr_left
        intro x _
        by_cases hx : x.key = u.key
        · simp only [Function.comp_apply, if_pos hx]
          rw [find?_eq_none_of_keys hnotin, List.find?_cons,
            decide_eq_true (show u.key = x.key from hx.symm)]
          rfl
        · simp only [Function.comp_apply, if_neg hx]
          rw [List.find?_cons, decide_eq_false (show ¬u.key = x.key from
            fun he => hx he.symm)]
      have hfil : (rest.filter fun v =>
            ! (old.map fun x => if x.key = u.key then u else x).any
              (fun x => x.key = v.key)) =
          rest.filter fun v => ! old.any (fun x => x.key = v.key) := by
        apply List.filter_congr
        intro v _
        rw [any_key_map_replace old]
      have hhead : ((u :: rest).filter fun v => ! old.any (fun x => x.key = v.key)) =
          rest.filter fun v => ! old.any (fun x => x.key = v.key) := by
        apply List.filter_cons_of_neg
        rw [hany]
        decide
      rw [hmap, hfil, hhead]
    · rw [if_neg hany]
      congr 1
      have hget : ((rest.find? (fun v => v.key = u.key)).getD u) = u := by
        rw [find?_eq_none_of_keys hnotin]
        rfl
      have hmap : ((old ++ [u]).map fun x =>
            (rest.find? (fun v => v.key = x.key)).getD x) =
          (old.map fun x => ((u :: rest).find? (fun v => v.key = x.key)).getD x)
            ++ [u] := by
        rw [List.map_append]
        congr 1
        · apply List.map_congr_left
          intro x hx
          have hxk : ¬(u.key = x.key) := by
            intro he
            exact hany (List.any_eq_true.mpr ⟨x, hx, decide_eq_true he.symm⟩)
          rw [List.find?_cons, decide_eq_false hxk]
        · simp [hget]
      have hfil : (rest.filter fun v => ! (old ++ [u]).any (fun x => x.key = v.key)) =
          rest.filter fun v => ! old.any (fun x => x.key = v.key) := by
        apply List.filter_congr
        intro v hv
        have : ¬(u.key = v.key) := by
          intro he
          exact hnotin (he ▸ List.mem_map_of_mem Tag.key hv)
        simp [List.any_append, this]
      have hhead : ((u :: rest).filter fun v => ! old.any (fun x => x.key = v.key)) =
          u :: rest.filter fun v => ! old.any (fun x => x.key = v.key) := by
        apply List.filter_cons_of_pos
        have h0 : old.any (fun x => x.key = u.key) = false := Bool.eq_false_iff.mpr hany
        rw [h0]
        rfl
      rw [hmap, hfil, hhead, List.append_assoc, List.singleton_append]

/-- C5 counterexample: with no existing entries and the plan built in the
order `query` then `json` (the builder's construction order), the merge
appends the fresh keys in sorted key order — `json` before `query` — not
in the plan's insertion order. -/
theorem c5_counterexample :
    mergePlanned []
        [⟨"query".toList, "x".toList, []⟩, ⟨"json".toList, "-".toList, []⟩] =
      .ok [⟨"json".toList, "-".toList, []⟩, ⟨"query".toList, "x".toList, []⟩] ∧
    ([⟨"json".toList, "-".toList, []⟩, ⟨"query".toList, "x".toList, []⟩] : Tags) ≠
      [⟨"query".toList, "x".toList, []⟩, ⟨"json".toList, "-".toList, []⟩] := by
  constructor
  · decide
  · decide

/-- C5 amended: a key already present keeps its original position and only
its value is replaced; keys not already present are appended at the end in
ascending key order — the plan is stably sorted by key before merging —
rather than in the builder's insertion order (for plans with nonempty,
pairwise distinct keys, as the builder produces). -/
theorem c5_merge_order (old plan : Tags)
    (hk : ∀ u ∈ plan, u.key ≠ [])
    (hnd : (plan.map Tag.key).Nodup) :
    mergePlanned old plan =
      .ok ((old.map fun x => ((sortTags plan).find? (fun u => u.key = x.key)).getD x)
        ++ (sortTags plan).filter fun u => ! old.any (fun x => x.key = u.key)) := by
  apply mergeSortedInto_char
  · intro u hu
    exact hk u (mem_sortTags.mp hu)
  · exact ((sortTags_perm plan).map Tag.key).nodup_iff.mpr hnd

/-- C5 witness: one replaced key keeps its position, two fresh keys are
appended in sorted order. -/
theorem c5_witness :
    (∀ u ∈ ([⟨"query".toList, "n".toList, []⟩, ⟨"a".toList, "2".toList, []⟩] : Tags),
        Tag.key u ≠ []) ∧
    ((([⟨"query".toList, "n".toList, []⟩, ⟨"a".toList, "2".toList, []⟩] : Tags).map
        Tag.key).Nodup) ∧
    mergePlanned [⟨"a".toList, "1".toList, []⟩]
        [⟨"query".toList, "n".toList, []⟩, ⟨"a".toList, "2".toList, []⟩] =
      .ok ((([⟨"a".toList, "1".toList, []⟩] : Tags).map fun x =>
          ((sortTags [⟨"query".toList, "n".toList, []⟩, ⟨"a".toList, "2".toList, []⟩]).find?
            (fun u => u.key = x.key)).getD x)
        ++ (sortTags [⟨"query".toList, "n".toList, []⟩, ⟨"a".toList, "2".toList, []⟩]).filter
          fun u => ! ([⟨"a".toList, "1".toList, []⟩] : Tags).any
            (fun x => x.key = u.key)) :=
  ⟨by decide, by decide,
   c5_merge_order [⟨"a".toList, "1".toList, []⟩]
     [⟨"query".toList, "n".toList, []⟩, ⟨"a".toList, "2".toList, []⟩]
     (by decide) (by decide)⟩

/-! ### Explicit body/unspecified override (claim C10) -/

/-- C10: a field carrying an explicit location option valued BODY or
UNSPECIFIED gets no location-derived entry, no alias entries and no
json-removal entry, whatever the inherited location: its extraction equals
the pipeline with the binding-tag stage skipped entirely. -/
theorem c10_explicit_body_override (f : FieldNode) (li : BindingLocation)
    (ats : List Str) (config : Config) (loc : BindingLocation)
    (hloc : f.location = some loc)
    (hbody : loc = .BODY ∨ loc = .UNSPECIFIED) :
    extractField f li ats config =
      addManualTags (f.tags.getD [])
        (addAutoTags f.name (fieldEffectivePair f (li, ats)).2 []) := by
  have hp1 : (fieldEffectivePair f (li, ats)).1 = loc := by
    simp [fieldEffectivePair, applyNodeOptions, getLocationAndAutoTags, hloc]
  have hb : ∀ ts : Tags,
      addBindingTags f.name (fieldEffectivePair f (li, ats)).1 config ts = ts := by
    intro ts
    unfold addBindingTags
    rw [hp1]
    rcases hbody with h | h <;> subst h <;> rfl
  show addManualTags (f.tags.getD [])
      (addBindingTags f.name (fieldEffectivePair f (li, ats)).1 config
        (addAutoTags f.name (fieldEffectivePair f (li, ats)).2 [])) = _
  rw [hb]

/-- C10 witness: explicit BODY under an inherited QUERY with an alias table
and remove-json enabled produces no entries at all. -/
theorem c10_witness :
    (FieldNode.location ⟨"x".toList, "F".toList, some .BODY, none, none⟩ =
      some BindingLocation.BODY) ∧
    (BindingLocation.BODY = BindingLocation.BODY ∨
      BindingLocation.BODY = BindingLocation.UNSPECIFIED) ∧
    extractField ⟨"x".toList, "F".toList, some .BODY, none, none⟩ .QUERY []
        ⟨true, [("query".toList, ["form".toList])]⟩ =
      addManualTags ((FieldNode.tags ⟨"x".toList, "F".toList, some .BODY, none, none⟩).getD [])
        (addAutoTags (FieldNode.name ⟨"x".toList, "F".toList, some .BODY, none, none⟩)
          (fieldEffectivePair ⟨"x".toList, "F".toList, some .BODY, none, none⟩
            (.QUERY, [])).2 []) :=
  ⟨rfl, Or.inl rfl,
   c10_explicit_body_override ⟨"x".toList, "F".toList, some .BODY, none, none⟩
     .QUERY [] ⟨true, [("query".toList, ["form".toList])]⟩ .BODY rfl (Or.inl rfl)⟩

/-! ### Write gating (claim C6) and the path check (claim C7) -/

/-- C6: a unit whose extracted plan is empty returns immediately with no
file I/O at all, and a unit whose merge reports no change performs no
write: in both cases the target file is untouched. -/
theorem c6_unchanged_never_written :
    (∀ (f : ProtoFile) (out : Str) (config : Config) (target : TargetState),
      extractFile f config = .ok [] →
      generateFile f out config target = (.ok (), [])) ∧
    (∀ (f : ProtoFile) (out : Str) (config : Config) (decls : List Decl)
        (tags : StructTags) (nd : List Decl),
      extractFile f config = .ok tags →
      ReTagsWithCheck decls tags = .ok (nd, false) →
      ((generateFile f out config (.parsed decls)).2.all fun e => !isWriteEv e) = true) := by
  constructor
  · intro f out config target h
    unfold generateFile
    rw [h]
    rfl
  · intro f out config decls tags nd hext hmerge
    simp only [generateFile, hext]
    by_cases hlen : tags.length = 0
    · rw [if_pos hlen]
      rfl
    · rw [if_neg hlen]
      by_cases hp : ¬ (filepathClean out).isPrefixOf
          (filepathClean (filepathJoin (filepathClean out)
            (f.filenameStem ++ ".pb.go".toList)))
      · rw [if_pos hp]
        rfl
      · rw [if_neg hp]
        rw [hmerge]
        rfl

/-- C6 witness: the empty-plan case on an optionless schema, and the
no-change case where the plan matches no declaration. -/
theorem c6_witness :
    (extractFile ⟨"f".toList, .nil⟩ ⟨true, []⟩ = .ok [] ∧
      generateFile ⟨"f".toList, .nil⟩ "api".toList ⟨true, []⟩ .missing = (.ok (), [])) ∧
    (extractFile ⟨"f".toList, .cons (.mk "S".toList none none
          [⟨"x".toList, "F".toList, some .QUERY, none, none⟩] [] .nil) .nil⟩ ⟨false, []⟩ =
        .ok [("S".toList, [("F".toList, [⟨"query".toList, "x".toList, []⟩])])] ∧
      ReTagsWithCheck [] [("S".toList, [("F".toList, [⟨"query".toList, "x".toList, []⟩])])] =
        .ok ([], false) ∧
      ((generateFile ⟨"f".toList, .cons (.mk "S".toList none none
            [⟨"x".toList, "F".toList, some .QUERY, none, none⟩] [] .nil) .nil⟩
          "api".toList ⟨false, []⟩ (.parsed [])).2.all fun e => !isWriteEv e) = true) :=
  ⟨⟨by decide, c6_unchanged_never_written.1 ⟨"f".toList, .nil⟩ "api".toList ⟨true, []⟩
      .missing (by decide)⟩,
   ⟨by decide, by decide,
    c6_unchanged_never_written.2
      ⟨"f".toList, .cons (.mk "S".toList none none
        [⟨"x".toList, "F".toList, some .QUERY, none, none⟩] [] .nil) .nil⟩
      "api".toList ⟨false, []⟩ []
      [("S".toList, [("F".toList, [⟨"query".toList, "x".toList, []⟩])])] []
      (by decide) (by decide)⟩⟩

/-- C7: the path-traversal test is a plain string-prefix comparison on the
cleaned path, so a target that escapes the output directory `api` into the
sibling directory `api2` (via a leading `..` in the generated filename
stem) is not rejected: the pipeline goes on to stat the outside path
instead of aborting before any file I/O. -/
theorem c7_traversal_check_bypassed :
    filepathJoin (filepathClean "api".toList) ("../api2/x".toList ++ ".pb.go".toList) =
      "api2/x.pb.go".toList ∧
    ¬ ("api/".toList.isPrefixOf "api2/x.pb.go".toList) ∧
    "api2/x.pb.go".toList ≠ "api".toList ∧
    (generateFile ⟨"../api2/x".toList, .cons (.mk "M".toList none none
        [⟨"x".toList, "F".toList, some .QUERY, none, none⟩] [] .nil) .nil⟩
      "api".toList ⟨true, []⟩ .missing).2 = [IOEvent.statEv] := by
  refine ⟨by decide, by decide, by decide, by decide⟩

/-! ### Manual-tag parse failures abort extraction (claim C8) -/

theorem addManualTags_err :
    ∀ (frs : List Str),
      (∃ fr ∈ frs, fr.length ≠ 0 ∧ ¬((parseTags fr).isOk = true)) →
      ∀ (base : Tags), ∃ e, addManualTags frs base = .error e := by
  intro frs
  induction frs with
  | nil =>
    rintro ⟨fr, hmem, _⟩
    cases hmem
  | cons fr rest ih =>
    rintro ⟨fr0, hmem, hlen0, hbad0⟩ base
    simp only [addManualTags]
    by_cases hlen : fr.length = 0
    · rw [if_pos hlen]
      refine ih ⟨fr0, ?_, hlen0, hbad0⟩ base
      rcases List.mem_cons.mp hmem with h | h
      · exact absurd (h ▸ hlen) hlen0
      · exact h
    · rw [if_neg hlen]
      cases hp : parseTags fr with
      | error e => exact ⟨e, rfl⟩
      | ok p =>
        refine ih ⟨fr0, ?_, hlen0, hbad0⟩ _
        rcases List.mem_cons.mp hmem with h | h
        · subst h
          exact absurd (by rw [hp]; rfl) hbad0
        · exact h

theorem addManualTags_ok :
    ∀ (frs : List Str),
      (∀ fr ∈ frs, fr.length = 0 ∨ (parseTags fr).isOk = true) →
      ∀ (base : Tags), ∃ ts, addManualTags frs base = .ok ts := by
  intro frs
  induction frs with
  | nil => exact fun _ base => ⟨base, rfl⟩
  | cons fr rest ih =>
    intro h base
    simp only [addManualTags]
    by_cases hlen : fr.length = 0
    · rw [if_pos hlen]
      exact ih (fun g hg => h g (List.mem_cons_of_mem fr hg)) base
    · rw [if_neg hlen]
      cases hp : parseTags fr with
      | error e =>
        have := (h fr (List.mem_cons_self fr rest)).resolve_left hlen
        rw [hp] at this
        cases this
      | ok p => exact ih (fun g hg => h g (List.mem_cons_of_mem fr hg)) _

theorem extractField_err {f : FieldNode} (hb : fieldHasBadManual f = true)
    (loc : BindingLocation) (ats : List Str) (cfg : Config) :
    ∃ e, extractField f loc ats cfg = .error e := by
  obtain ⟨fr, hmem, hpred⟩ := List.any_eq_true.mp hb
  rw [Bool.and_eq_true, decide_eq_true_eq, Bool.not_eq_true'] at hpred
  show ∃ e, addManualTags (f.tags.getD [])
      (addBindingTags f.name (fieldEffectivePair f (loc, ats)).1 cfg
        (addAutoTags f.name (fieldEffectivePair f (loc, ats)).2 [])) = .error e
  exact addManualTags_err _ ⟨fr, hmem, hpred.1,
    fun h => by rw [hpred.2] at h; cases h⟩ _

theorem extractField_ok {f : FieldNode} (hb : fieldHasBadManual f = false)
    (loc : BindingLocation) (ats : List Str) (cfg : Config) :
    ∃ ts, extractField f loc ats cfg = .ok ts := by
  have hall := List.any_eq_false.mp hb
  show ∃ ts, addManualTags (f.tags.getD [])
      (addBindingTags f.name (fieldEffectivePair f (loc, ats)).1 cfg
        (addAutoTags f.name (fieldEffectivePair f (loc, ats)).2 [])) = .ok ts
  apply addManualTags_ok
  intro fr hfr
  have hb2 : (decide (fr.length ≠ 0) && !(parseTags fr).isOk) = false :=
    Bool.eq_false_iff.mpr (hall fr hfr)
  rw [Bool.and_eq_false_iff] at hb2
  rcases hb2 with h | h
  · left
    simpa using h
  · right
    simpa [Bool.not_eq_true'] using h

theorem extractFields_err :
    ∀ (fields : List FieldNode) (loc : BindingLocation) (ats : List Str)
      (cfg : Config) (acc : FieldTagsMap),
      (∃ f ∈ fields, fieldHasBadManual f = true) →
      ∃ e, extractFields fields loc ats cfg acc = .error e := by
  intro fields
  induction fields with
  | nil =>
    rintro _ _ _ _ ⟨f, hmem, _⟩
    cases hmem
  | cons f rest ih =>
    rintro loc ats cfg acc ⟨f0, hmem, hbad⟩
    simp only [extractFields]
    cases he : extractField f loc ats cfg with
    | error e => exact ⟨e, rfl⟩
    | ok ft =>
      rcases List.mem_cons.mp hmem with h | h
      · subst h
        obtain ⟨e, he2⟩ := extractField_err hbad loc ats cfg
        rw [he2] at he
        cases he
      · exact ih loc ats cfg _ ⟨f0, h, hbad⟩

theorem extractFields_ok :
    ∀ (fields : List FieldNode) (loc : BindingLocation) (ats : List Str)
      (cfg : Config) (acc : FieldTagsMap),
      (∀ f ∈ fields, fieldHasBadManual f = false) →
      ∃ r, extractFields fields loc ats cfg acc = .ok r := by
  intro fields
  induction fields with
  | nil => exact fun _ _ _ acc _ => ⟨acc, rfl⟩
  | cons f rest ih =>
    intro loc ats cfg acc hall
    simp only [extractFields]
    obtain ⟨ts, hts⟩ := extractField_ok (hall f (List.mem_cons_self f rest)) loc ats cfg
    rw [hts]
    exact ih loc ats cfg _ (fun g hg => hall g (List.mem_cons_of_mem f hg))

theorem extractOneofs_err :
    ∀ (oneofs : List OneofNode) (loc : BindingLocation) (ats : List Str)
      (cfg : Config) (acc : FieldTagsMap),
      (∃ o ∈ oneofs, ∃ f ∈ o.fields, fieldHasBadManual f = true) →
      ∃ e, extractOneofs oneofs loc ats cfg acc = .error e := by
  intro oneofs
  induction oneofs with
  | nil =>
    rintro _ _ _ _ ⟨o, hmem, _⟩
    cases hmem
  | cons o rest ih =>
    rintro loc ats cfg acc ⟨o0, hmem, hbad⟩
    simp only [extractOneofs]
    cases he : extractFields o.fields (applyNodeOptions (loc, ats) o.location o.autoTags).1
        (applyNodeOptions (loc, ats) o.location o.autoTags).2 cfg acc with
    | error e => exact ⟨e, rfl⟩
    | ok acc2 =>
      rcases List.mem_cons.mp hmem with h | h
      · obtain ⟨e, he2⟩ := extractFields_err o.fields
          (applyNodeOptions (loc, ats) o.location o.autoTags).1
          (applyNodeOptions (loc, ats) o.location o.autoTags).2 cfg acc (h ▸ hbad)
        rw [he2] at he
        cases he
      · exact ih loc ats cfg _ ⟨o0, h, hbad⟩

theorem extractOneofs_ok :
    ∀ (oneofs : List OneofNode) (loc : BindingLocation) (ats : List Str)
      (cfg : Config) (acc : FieldTagsMap),
      (∀ o ∈ oneofs, ∀ f ∈ o.fields, fieldHasBadManual f = false) →
      ∃ r, extractOneofs oneofs loc ats cfg acc = .ok r := by
  intro oneofs
  induction oneofs with
  | nil => exact fun _ _ _ acc _ => ⟨acc, rfl⟩
  | cons o rest ih =>
    intro loc ats cfg acc hall
    simp only [extractOneofs]
    obtain ⟨r, hr⟩ := extractFields_ok o.fields
      (applyNodeOptions (loc, ats) o.location o.autoTags).1
      (applyNodeOptions (loc, ats) o.location o.autoTags).2 cfg acc
      (hall o (List.mem_cons_self o rest))
    rw [hr]
    exact ih loc ats cfg _ (fun g hg => hall g (List.mem_cons_of_mem o hg))

mutual
theorem extractMessage_err :
    ∀ (m : MessageNode) (loc : BindingLocation) (ats : List Str) (cfg : Config),
      hasBadManualMsg m = true → ∃ e, extractMessage m loc ats cfg = .error e
  | .mk goName dLoc dAuto fields oneofs nested => by
    intro loc ats cfg hbad
    simp only [hasBadManualMsg, Bool.or_eq_true] at hbad
    simp only [extractMessage]
    cases hf : extractFields fields (applyNodeOptions (loc, ats) dLoc dAuto).1
        (applyNodeOptions (loc, ats) dLoc dAuto).2 cfg [] with
    | error e => exact ⟨e, rfl⟩
    | ok mt =>
      dsimp only
      cases ho : extractOneofs oneofs (applyNodeOptions (loc, ats) dLoc dAuto).1
          (applyNodeOptions (loc, ats) dLoc dAuto).2 cfg mt with
      | error e => exact ⟨e, rfl⟩
      | ok messageTags =>
        dsimp only
        cases hn : extractMessageList nested (applyNodeOptions (loc, ats) dLoc dAuto).1
            (applyNodeOptions (loc, ats) dLoc dAuto).2 cfg [] with
        | error e => exact ⟨e, rfl⟩
        | ok nestedTags =>
          exfalso
          rcases hbad with (hb | hb) | hb
          · obtain ⟨e, he⟩ := extractFields_err fields _ _ cfg []
              (by simpa using List.any_eq_true.mp hb)
            rw [he] at hf
            cases hf
          · obtain ⟨o, hom, hof⟩ := List.any_eq_true.mp hb
            obtain ⟨e, he⟩ := extractOneofs_err oneofs _ _ cfg mt
              ⟨o, hom, by simpa using List.any_eq_true.mp hof⟩
            rw [he] at ho
            cases ho
          · obtain ⟨e, he⟩ := extractMessageList_err nested _ _ cfg [] hb
            rw [he] at hn
            cases hn

theorem extractMessageList_err :
    ∀ (ms : MessageList) (loc : BindingLocation) (ats : List Str) (cfg : Config)
      (acc : StructTags),
      hasBadManualList ms = true → ∃ e, extractMessageList ms loc ats cfg acc = .error e
  | .nil => by
    intro _ _ _ _ h
    cases h
  | .cons m tail => by
    intro loc ats cfg acc hbad
    simp only [hasBadManualList, Bool.or_eq_true] at hbad
    simp only [extractMessageList]
    cases he : extractMessage m loc ats cfg with
    | error e => exact ⟨e, rfl⟩
    | ok e =>
      rcases hbad with hb | hb
      · obtain ⟨e2, he2⟩ := extractMessage_err m loc ats cfg hb
        rw [he2] at he
        cases he
      · exact extractMessageList_err tail loc ats cfg _ hb
end

theorem extractTopMessages_err :
    ∀ (ms : MessageList) (cfg : Config) (acc : StructTags),
      hasBadManualList ms = true → ∃ e, extractTopMessages ms cfg acc = .error e
  | .nil => by
    intro _ _ h
    cases h
  | .cons m tail => by
    intro cfg acc hbad
    simp only [hasBadManualList, Bool.or_eq_true] at hbad
    simp only [extractTopMessages]
    cases he : extractMessage m .UNSPECIFIED [] cfg with
    | error e => exact ⟨e, rfl⟩
    | ok e =>
      rcases hbad with hb | hb
      · obtain ⟨e2, he2⟩ := extractMessage_err m .UNSPECIFIED [] cfg hb
        rw [he2] at he
        cases he
      · exact extractTopMessages_err tail cfg _ hb

/-- C8: a malformed nonempty manual-tag fragment anywhere in the schema
unit makes `generateFile` return the extraction error before any I/O on
the target: the file is neither statted, parsed nor written. -/
theorem c8_manual_parse_aborts_unit (f : ProtoFile) (out : Str) (config : Config)
    (target : TargetState) (h : hasBadManualFile f = true) :
    ∃ e, generateFile f out config target = (.error e, []) := by
  obtain ⟨e, he⟩ := extractTopMessages_err f.messages config [] h
  refine ⟨e, ?_⟩
  unfold generateFile
  rw [show extractFile f config = .error e from he]

/-- C8 witness: a schema unit with the unparsable manual fragment `oops`
on one field returns an error with an empty I/O trace. -/
theorem c8_witness :
    hasBadManualFile ⟨"f".toList, .cons (.mk "S".toList none none
        [⟨"x".toList, "F".toList, none, none, some ["oops".toList]⟩] [] .nil) .nil⟩ = true ∧
    ∃ e, generateFile ⟨"f".toList, .cons (.mk "S".toList none none
        [⟨"x".toList, "F".toList, none, none, some ["oops".toList]⟩] [] .nil) .nil⟩
      "api".toList ⟨true, []⟩ .missing = (.error e, []) :=
  ⟨by decide,
   c8_manual_parse_aborts_unit
     ⟨"f".toList, .cons (.mk "S".toList none none
       [⟨"x".toList, "F".toList, none, none, some ["oops".toList]⟩] [] .nil) .nil⟩
     "api".toList ⟨true, []⟩ .missing (by decide)⟩

/-! ### Unparsable existing annotations abort the merge (claim C9) -/

theorem reTagsNames_err {plan : FieldTagsMap} :
    ∀ (names : List Str) (tagVal : Option Str),
      ¬((parseTags (trimBackticks (tagVal.getD []))).isOk = true) →
      (∃ n ∈ names, (lookupMap plan n).isSome = true) →
      ∃ e, reTagsNames plan names tagVal = .error e := by
  intro names
  induction names with
  | nil =>
    rintro _ _ ⟨n, hmem, _⟩
    cases hmem
  | cons n rest ih =>
    rintro tagVal hbadp ⟨n0, hmem, hsome⟩
    simp only [reTagsNames]
    cases hl : lookupMap plan n with
    | none =>
      apply ih tagVal hbadp
      rcases List.mem_cons.mp hmem with h | h
      · rw [h, hl] at hsome
        cases hsome
      · exact ⟨n0, h, hsome⟩
    | some newTags =>
      dsimp only
      cases hpp : parseTags (trimBackticks (tagVal.getD [])) with
      | error e =>
        refine ⟨e, ?_⟩
        have hm : mergeFieldTag (tagVal.getD []) newTags = .error e := by
          simp [mergeFieldTag, hpp]
        rw [hm]
      | ok o => exact absurd (by rw [hpp]; rfl) hbadp

theorem reTagsField_err {plan : FieldTagsMap} {f : AstField}
    (hb : fieldMatchedBad plan f = true) : ∃ e, reTagsField plan f = .error e := by
  rw [fieldMatchedBad, Bool.and_eq_true, Bool.not_eq_true'] at hb
  obtain ⟨n, hmem, hs⟩ := List.any_eq_true.mp hb.2
  obtain ⟨e, he⟩ := reTagsNames_err f.names f.tag
    (fun h => by rw [hb.1] at h; cases h) ⟨n, hmem, hs⟩
  refine ⟨e, ?_⟩
  simp [reTagsField, he]

theorem reTagsFields_err {plan : FieldTagsMap} :
    ∀ (fields : List AstField), (∃ f ∈ fields, fieldMatchedBad plan f = true) →
      ∃ e, reTagsFields plan fields = .error e := by
  intro fields
  induction fields with
  | nil =>
    rintro ⟨f, hmem, _⟩
    cases hmem
  | cons f rest ih =>
    rintro ⟨f0, hmem, hbad⟩
    simp only [reTagsFields]
    cases hr : reTagsField plan f with
    | error e => exact ⟨e, rfl⟩
    | ok pr =>
      obtain ⟨f1, ch1⟩ := pr
      rcases List.mem_cons.mp hmem with h | h
      · obtain ⟨e, he⟩ := reTagsField_err (h ▸ hbad)
        rw [he] at hr
        cases hr
      · obtain ⟨e, he⟩ := ih ⟨f0, h, hbad⟩
        refine ⟨e, ?_⟩
        dsimp only
        rw [he]

theorem declsBad_nil : ∀ (decls : List Decl), declsBad [] decls = false := by
  intro decls
  apply List.any_eq_false.mpr
  intro d _
  cases d with
  | other => simp
  | structDecl s =>
    intro h
    simp [lookupMap] at h

theorem reTagsDecls_err {tags : StructTags} :
    ∀ (decls : List Decl), declsBad tags decls = true →
      ∃ e, reTagsDecls tags decls = .error e := by
  intro decls
  induction decls with
  | nil => intro h; cases h
  | cons d rest ih =>
    intro h
    rw [declsBad, List.any_cons, Bool.or_eq_true] at h
    cases d with
    | other =>
      simp only at h
      obtain ⟨e, he⟩ := ih (h.resolve_left (by simp))
      refine ⟨e, ?_⟩
      simp only [reTagsDecls]
      rw [he]
    | structDecl s =>
      dsimp only at h
      simp only [reTagsDecls]
      cases hl : lookupMap tags s.name with
      | none =>
        rw [hl] at h
        dsimp only at h ⊢
        obtain ⟨e, he⟩ := ih (h.resolve_left (by simp))
        refine ⟨e, ?_⟩
        rw [he]
      | some plan =>
        rw [hl] at h
        dsimp only at h ⊢
        cases hr : reTagsFields plan s.fields with
        | error e => exact ⟨e, rfl⟩
        | ok pr =>
          obtain ⟨fs1, ch1⟩ := pr
          rcases h with hb | hb
          · obtain ⟨e, he⟩ := reTagsFields_err s.fields
              (by simpa using List.any_eq_true.mp hb)
            rw [he] at hr
            cases hr
          · obtain ⟨e, he⟩ := ih hb
            refine ⟨e, ?_⟩
            dsimp only
            rw [he]

/-- C9: an existing annotation string on a plan-matched field that fails to
parse aborts the whole unit with that parse error (it is not skipped
best-effort), and the target file is never written. -/
theorem c9_existing_parse_error_aborts (tags : StructTags) (decls : List Decl)
    (f : ProtoFile) (out : Str) (config : Config)
    (hbad : declsBad tags decls = true)
    (hext : extractFile f config = .ok tags) :
    (∃ e, ReTagsWithCheck decls tags = .error e) ∧
    (∃ e, (generateFile f out config (.parsed decls)).1 = .error e) ∧
    ((generateFile f out config (.parsed decls)).2.all fun ev => !isWriteEv ev) = true := by
  obtain ⟨e, he⟩ := reTagsDecls_err decls hbad
  have hR : ReTagsWithCheck decls tags = .error e := he
  have hgen : (∃ e2, (generateFile f out config (.parsed decls)).1 = .error e2) ∧
      ((generateFile f out config (.parsed decls)).2.all fun ev => !isWriteEv ev) = true := by
    simp only [generateFile, hext]
    by_cases hlen : tags.length = 0
    · exfalso
      rw [List.length_eq_zero.mp hlen, declsBad_nil] at hbad
      cases hbad
    · rw [if_neg hlen]
      by_cases hp : ¬ (filepathClean out).isPrefixOf
          (filepathClean (filepathJoin (filepathClean out)
            (f.filenameStem ++ ".pb.go".toList)))
      · rw [if_pos hp]
        exact ⟨⟨_, rfl⟩, rfl⟩
      · rw [if_neg hp]
        rw [hR]
        exact ⟨⟨e, rfl⟩, rfl⟩
  exact ⟨⟨e, hR⟩, hgen.1, hgen.2⟩

/-- C9 witness: a matched field carrying the unparsable annotation literal
`oops` makes the merge and the unit abort, with no write event. -/
theorem c9_witness :
    declsBad [("S".toList, [("F".toList, [⟨"query".toList, "x".toList, []⟩])])]
        [.structDecl ⟨"S".toList, [⟨["F".toList], some "oops".toList⟩]⟩] = true ∧
    extractFile ⟨"f".toList, .cons (.mk "S".toList none none
        [⟨"x".toList, "F".toList, some .QUERY, none, none⟩] [] .nil) .nil⟩ ⟨false, []⟩ =
      .ok [("S".toList, [("F".toList, [⟨"query".toList, "x".toList, []⟩])])] ∧
    ((∃ e, ReTagsWithCheck [.structDecl ⟨"S".toList, [⟨["F".toList], some "oops".toList⟩]⟩]
        [("S".toList, [("F".toList, [⟨"query".toList, "x".toList, []⟩])])] = .error e) ∧
      (∃ e, (generateFile ⟨"f".toList, .cons (.mk "S".toList none none
          [⟨"x".toList, "F".toList, some .QUERY, none, none⟩] [] .nil) .nil⟩
        "api".toList ⟨false, []⟩
        (.parsed [.structDecl ⟨"S".toList, [⟨["F".toList], some "oops".toList⟩]⟩])).1 =
          .error e) ∧
      ((generateFile ⟨"f".toList, .cons (.mk "S".toList none none
          [⟨"x".toList, "F".toList, some .QUERY, none, none⟩] [] .nil) .nil⟩
        "api".toList ⟨false, []⟩
        (.parsed [.structDecl ⟨"S".toList, [⟨["F".toList], some "oops".toList⟩]⟩])).2.all
          fun ev => !isWriteEv ev) = true) :=
  ⟨by decide, by decide,
   c9_existing_parse_error_aborts
     [("S".toList, [("F".toList, [⟨"query".toList, "x".toList, []⟩])])]
     [.structDecl ⟨"S".toList, [⟨["F".toList], some "oops".toList⟩]⟩]
     ⟨"f".toList, .cons (.mk "S".toList none none
       [⟨"x".toList, "F".toList, some .QUERY, none, none⟩] [] .nil) .nil⟩
     "api".toList ⟨false, []⟩ (by decide) (by decide)⟩

/-! ### Scanner lemmas for the serialize/parse round trip (claim C2) -/

theorem takeWhile_append_all {α : Type} {p : α → Bool} :
    ∀ (xs ys : List α), (∀ c ∈ xs, p c = true) →
      (xs ++ ys).takeWhile p = xs ++ ys.takeWhile p := by
  intro xs ys
  induction xs with
  | nil => intro _; rfl
  | cons x xr ih =>
    intro h
    simp only [List.cons_append, List.takeWhile_cons, h x (List.mem_cons_self x xr)]
    simp [ih (fun c hc => h c (List.mem_cons_of_mem x hc))]

theorem dropWhile_append_all {α : Type} {p : α → Bool} :
    ∀ (xs ys : List α), (∀ c ∈ xs, p c = true) →
      (xs ++ ys).dropWhile p = ys.dropWhile p := by
  intro xs ys
  induction xs with
  | nil => intro _; rfl
  | cons x xr ih =>
    intro h
    simp only [List.cons_append, List.dropWhile_cons, h x (by simp)]
    exact ih (fun c hc => h c (by simp [hc]))

theorem scanQuoted_cons_quote (rest : Str) :
    scanQuoted (quoteChar :: rest) = some ([], rest) := by
  unfold scanQuoted
  rw [if_pos rfl]

theorem scanQuoted_cons_other (c : Char) (rest : Str) (h1 : ¬(c = quoteChar))
    (h2 : ¬(c = backslashChar)) :
    scanQuoted (c :: rest) = (scanQuoted rest).map (fun p => (c :: p.1, p.2)) := by
  conv_lhs => unfold scanQuoted
  rw [if_neg h1, if_neg h2]

theorem unquote_cons_other (c : Char) (rest : Str) (h1 : ¬(c = backslashChar))
    (h2 : ¬(c = newlineChar)) :
    unquote (c :: rest) = (unquote rest).map (c :: ·) := by
  conv_lhs => unfold unquote
  rw [if_neg h1, if_neg h2]

theorem splitComma_comma (rest : Str) :
    splitComma (',' :: rest) = [] :: splitComma rest := by
  conv_lhs => unfold splitComma
  rw [if_pos rfl]

theorem splitComma_other (c : Char) (rest s : Str) (ss : List Str)
    (h : ¬(c = ',')) (hr : splitComma rest = s :: ss) :
    splitComma (c :: rest) = (c :: s) :: ss := by
  conv_lhs => unfold splitComma
  rw [if_neg h, hr]

theorem scanQuoted_clean :
    ∀ (s rem : Str), (∀ c ∈ s, ¬(c = quoteChar) ∧ ¬(c = backslashChar)) →
      scanQuoted (s ++ quoteChar :: rem) = some (s, rem) := by
  intro s rem
  induction s with
  | nil =>
    intro _
    rw [List.nil_append, scanQuoted_cons_quote]
  | cons c cr ih =>
    intro h
    have hc := h c (List.mem_cons_self c cr)
    rw [List.cons_append, scanQuoted_cons_other c _ hc.1 hc.2,
      ih (fun d hd => h d (List.mem_cons_of_mem c hd))]
    rfl

theorem unquote_clean :
    ∀ (s : Str), (∀ c ∈ s, ¬(c = backslashChar) ∧ ¬(c = newlineChar)) →
      unquote s = some s := by
  intro s
  induction s with
  | nil => intro _; rfl
  | cons c cr ih =>
    intro h
    have hc := h c (List.mem_cons_self c cr)
    rw [unquote_cons_other c cr hc.1 hc.2, ih (fun d hd => h d (List.mem_cons_of_mem c hd))]
    rfl

theorem splitComma_clean :
    ∀ (s : Str), (∀ c ∈ s, ¬(c = ',')) → splitComma s = [s] := by
  intro s
  induction s with
  | nil => intro _; rfl
  | cons c cr ih =>
    intro h
    exact splitComma_other c cr cr [] (h c (List.mem_cons_self c cr))
      (ih (fun d hd => h d (List.mem_cons_of_mem c hd)))

theorem splitComma_append_comma :
    ∀ (s w : Str), (∀ c ∈ s, ¬(c = ',')) →
      splitComma (s ++ ',' :: w) = s :: splitComma w := by
  intro s w
  induction s with
  | nil =>
    intro _
    rw [List.nil_append, splitComma_comma]
  | cons c cr ih =>
    intro h
    rw [List.cons_append]
    cases hr : splitComma (cr ++ ',' :: w) with
    | nil =>
      rw [ih (fun d hd => h d (List.mem_cons_of_mem c hd))] at hr
      cases hr
    | cons s0 ss0 =>
      rw [ih (fun d hd => h d (List.mem_cons_of_mem c hd))] at hr
      cases hr
      exact splitComma_other c _ cr (splitComma w) (h c (List.mem_cons_self c cr))
        (ih (fun d hd => h d (List.mem_cons_of_mem c hd)))

theorem splitComma_joinComma :
    ∀ (parts : List Str), parts ≠ [] →
      (∀ part ∈ parts, ∀ c ∈ part, ¬(c = ',')) →
      splitComma (joinComma parts) = parts := by
  intro parts
  induction parts with
  | nil => intro h; cases h rfl
  | cons p rest ih =>
    intro _ hfree
    cases rest with
    | nil => exact splitComma_clean p (hfree p (by simp))
    | cons q qs =>
      show splitComma (p ++ ',' :: joinComma (q :: qs)) = _
      rw [splitComma_append_comma p _ (hfree p (by simp))]
      rw [ih (by simp) (fun part hp c hc => hfree part (by simp [hp]) c hc)]

theorem mem_joinComma :
    ∀ (parts : List Str) (c : Char), c ∈ joinComma parts →
      c = ',' ∨ ∃ part ∈ parts, c ∈ part := by
  intro parts
  induction parts with
  | nil => intro c h; cases h
  | cons p rest ih =>
    intro c h
    cases rest with
    | nil => exact Or.inr ⟨p, by simp, h⟩
    | cons q qs =>
      rw [show joinComma (p :: q :: qs) = p ++ ',' :: joinComma (q :: qs) from rfl] at h
      rcases List.mem_append.mp h with h1 | h2
      · exact Or.inr ⟨p, by simp, h1⟩
      · rcases List.mem_cons.mp h2 with h3 | h4
        · exact Or.inl h3
        · rcases ih c h4 with h5 | ⟨part, hp, hc⟩
          · exact Or.inl h5
          · exact Or.inr ⟨part, by simp [hp], hc⟩

theorem joinComma_eq_nil :
    ∀ (o : Str) (os : List Str), joinComma (o :: os) = [] → o = [] ∧ os = [] := by
  intro o os h
  cases os with
  | nil => exact ⟨h, rfl⟩
  | cons q qs =>
    rw [show joinComma (o :: q :: qs) = o ++ ',' :: joinComma (q :: qs) from rfl] at h
    cases o <;> cases h

theorem wfTag_parts {t : Tag} (h : wfTag t = true) :
    t.key ≠ [] ∧ t.key.all validTagKeyChar = true ∧ t.name.all goodValChar = true ∧
      t.options.all (fun o => o.all goodValChar) = true ∧ t.options ≠ [[]] := by
  unfold wfTag at h
  simp only [Bool.and_eq_true, decide_eq_true_eq] at h
  exact ⟨h.1.1.1.1, h.1.1.1.2, h.1.1.2, h.1.2, h.2⟩

theorem validTagKeyChar_spec {c : Char} (h : validTagKeyChar c = true) :
    isKeyChar c = true ∧ ¬(c = ' ') ∧ ¬(c = backtickChar) := by
  unfold validTagKeyChar at h
  rw [decide_eq_true_eq] at h
  refine ⟨?_, ?_, h.2.2.2.2⟩
  · unfold isKeyChar
    rw [decide_eq_true_eq]
    exact ⟨h.1, h.2.1, h.2.2.1, h.2.2.2.1⟩
  · intro he
    subst he
    exact lt_irrefl _ h.1

theorem goodValChar_spec {c : Char} (h : goodValChar c = true) :
    ¬(c = quoteChar) ∧ ¬(c = backslashChar) ∧ ¬(c = newlineChar) ∧ ¬(c = ',') := by
  unfold goodValChar at h
  rw [decide_eq_true_eq] at h
  exact h

/-- For well-formed options, the serialized tag value is exactly the comma
join of name and options. -/
theorem tagText_eq (t : Tag) (hopt : t.options ≠ [[]]) :
    Tag.text t = t.key ++ ':' :: quoteChar :: joinComma (t.name :: t.options)
      ++ [quoteChar] := by
  unfold Tag.text
  cases ho : t.options with
  | nil => simp [joinComma]
  | cons o os =>
    rw [if_pos ?_]
    · show t.key ++ ':' :: quoteChar :: (t.name ++ ',' :: joinComma (o :: os))
          ++ [quoteChar] = t.key ++ ':' :: quoteChar :: joinComma (t.name :: o :: os)
          ++ [quoteChar]
      rfl
    · intro hj
      obtain ⟨h1, h2⟩ := joinComma_eq_nil o os hj
      rw [ho, h1, h2] at hopt
      exact hopt rfl

theorem parseTagsFuel_nil (m : Nat) : parseTagsFuel (m + 1) [] = .ok [] := by
  rw [parseTagsFuel_succ]
  rfl

theorem parseTagsFuel_space (m : Nat) (w : Str) :
    parseTagsFuel (m + 1) (' ' :: w) = parseTagsFuel (m + 1) w := by
  rw [parseTagsFuel_succ, parseTagsFuel_succ,
    show List.dropWhile (fun c => decide (c = ' ')) (' ' :: w) =
      List.dropWhile (fun c => decide (c = ' ')) w from by
        rw [List.dropWhile_cons]
        rw [if_pos (by decide)]]

/-- Parsing one well-formed serialized tag followed by arbitrary text whose
parse is known. -/
theorem parse_one_tag (t : Tag) (tail : Str) (n : Nat) (acc : List Tag)
    (hwf : wfTag t = true) (htail : parseTagsFuel n tail = .ok acc) :
    parseTagsFuel (n + 1) (Tag.text t ++ tail) = .ok (t :: acc) := by
  obtain ⟨hkne, hkall, hnall, hoall, hone⟩ := wfTag_parts hwf
  obtain ⟨k0, kr, hkey⟩ := List.exists_cons_of_ne_nil hkne
  have hkeyall : ∀ c ∈ t.key, isKeyChar c = true := fun c hc =>
    (validTagKeyChar_spec (List.all_eq_true.mp hkall c hc)).1
  have hk0v : validTagKeyChar k0 = true :=
    List.all_eq_true.mp hkall k0 (by rw [hkey]; exact List.mem_cons_self k0 kr)
  have hvgood : ∀ c ∈ joinComma (t.name :: t.options),
      ¬(c = quoteChar) ∧ ¬(c = backslashChar) ∧ ¬(c = newlineChar) := by
    intro c hc
    rcases mem_joinComma _ c hc with h1 | ⟨part, hp, hcp⟩
    · subst h1
      exact ⟨by decide, by decide, by decide⟩
    · rcases List.mem_cons.mp hp with h2 | h2
      · have := goodValChar_spec (List.all_eq_true.mp hnall c (h2 ▸ hcp))
        exact ⟨this.1, this.2.1, this.2.2.1⟩
      · have ho := List.all_eq_true.mp hoall part h2
        have := goodValChar_spec (List.all_eq_true.mp ho c hcp)
        exact ⟨this.1, this.2.1, this.2.2.1⟩
  have hcommafree : ∀ part ∈ (t.name :: t.options), ∀ c ∈ part, ¬(c = ',') := by
    intro part hp c hc
    rcases List.mem_cons.mp hp with h2 | h2
    · exact (goodValChar_spec (List.all_eq_true.mp hnall c (h2 ▸ hc))).2.2.2
    · exact (goodValChar_spec (List.all_eq_true.mp
        (List.all_eq_true.mp hoall part h2) c hc)).2.2.2
  have hIa : Tag.text t ++ tail =
      t.key ++ (':' :: quoteChar :: (joinComma (t.name :: t.options)
        ++ quoteChar :: tail)) := by
    rw [tagText_eq t hone]
    simp [List.append_assoc]
  have hIc : Tag.text t ++ tail =
      k0 :: (kr ++ (':' :: quoteChar :: (joinComma (t.name :: t.options)
        ++ quoteChar :: tail))) := by
    rw [hIa, hkey]
    rfl
  have hdrop : (Tag.text t ++ tail).dropWhile (fun c => decide (c = ' ')) =
      Tag.text t ++ tail := by
    conv_lhs => rw [hIc]
    rw [List.dropWhile_cons_of_neg (by
      simp only [decide_eq_true_eq]
      exact (validTagKeyChar_spec hk0v).2.1)]
    exact hIc.symm
  have htake : (Tag.text t ++ tail).takeWhile isKeyChar = t.key := by
    rw [hIa, takeWhile_append_all _ _ hkeyall,
      List.takeWhile_cons_of_neg (by decide)]
    simp
  have hdrop2 : (Tag.text t ++ tail).dropWhile isKeyChar =
      ':' :: quoteChar :: (joinComma (t.name :: t.options) ++ quoteChar :: tail) := by
    rw [hIa, dropWhile_append_all _ _ hkeyall,
      List.dropWhile_cons_of_neg (by decide)]
  rw [parseTagsFuel_succ, hdrop]
  rw [if_neg (by rw [hIc]; simp)]
  rw [htake, hdrop2]
  rw [if_neg hkne]
  split
  · next c1 c2 vrest heq =>
    injection heq with h1 heq2
    injection heq2 with h2 heq3
    subst h1
    subst h2
    subst heq3
    rw [if_pos ⟨rfl, rfl⟩,
      scanQuoted_clean _ tail (fun c hc => ⟨(hvgood c hc).1, (hvgood c hc).2.1⟩)]
    split
    · next heqA => cases heqA
    · next val rem heqA =>
      injection heqA with hpair
      rw [Prod.mk.injEq] at hpair
      obtain ⟨hval, hrem⟩ := hpair
      subst hval
      subst hrem
      rw [unquote_clean _ (fun c hc => ⟨(hvgood c hc).2.1, (hvgood c hc).2.2⟩)]
      split
      · next heqB => cases heqB
      · next value heqB =>
        injection heqB with hv
        subst hv
        rw [htail]
        split
        · next acc2 heqC =>
          injection heqC with hacc
          subst hacc
          rw [splitComma_joinComma _ (by simp) hcommafree]
          rfl
        · next e heqC => cases heqC
  · next heq => exact absurd rfl (heq ':' quoteChar _)

theorem roundtrip_aux :
    ∀ (ts : Tags) (n : Nat), (∀ t ∈ ts, wfTag t = true) → ts.length ≤ n →
      parseTagsFuel (n + 1) (Tags.serialize ts) = .ok ts := by
  intro ts
  induction ts with
  | nil => intro n _ _; exact parseTagsFuel_nil n
  | cons t rest ih =>
    intro n hwf hlen
    cases n with
    | zero => simp at hlen
    | succ n2 =>
      have hwt : wfTag t = true := hwf t (List.mem_cons_self t rest)
      cases rest with
      | nil =>
        show parseTagsFuel (n2 + 1 + 1) (Tag.text t) = .ok [t]
        rw [show Tag.text t = Tag.text t ++ [] from (List.append_nil _).symm]
        exact parse_one_tag t [] (n2 + 1) [] hwt (parseTagsFuel_nil n2)
      | cons r rs =>
        show parseTagsFuel (n2 + 1 + 1) (Tag.text t ++ ' ' :: Tags.serialize (r :: rs)) =
          .ok (t :: r :: rs)
        refine parse_one_tag t (' ' :: Tags.serialize (r :: rs)) (n2 + 1) (r :: rs) hwt ?_
        rw [parseTagsFuel_space]
        exact ih n2 (fun u hu => hwf u (List.mem_cons_of_mem t hu))
          (by simpa using Nat.lt_succ_iff.mp (by simpa using hlen))

theorem tagText_length_pos (t : Tag) : 1 ≤ (Tag.text t).length := by
  unfold Tag.text
  split <;> simp only [List.length_append, List.length_cons] <;> omega

theorem serialize_length_ge : ∀ (ts : Tags), ts.length ≤ (Tags.serialize ts).length := by
  intro ts
  induction ts with
  | nil => simp [Tags.serialize]
  | cons t rest ih =>
    cases rest with
    | nil =>
      show 1 ≤ (Tag.text t).length
      exact tagText_length_pos t
    | cons r rs =>
      show (r :: rs).length + 1 ≤ (Tag.text t ++ ' ' :: Tags.serialize (r :: rs)).length
      have h1 := tagText_length_pos t
      have h2 := ih
      simp only [List.length_append, List.length_cons] at *
      omega

/-- The round trip: a list of well-formed tags serializes to text that the
parser maps back to exactly that list. -/
theorem parse_serialize (ts : Tags) (h : ∀ t ∈ ts, wfTag t = true) :
    parseTags (Tags.serialize ts) = .ok ts := by
  unfold parseTags
  exact roundtrip_aux ts _ h (serialize_length_ge ts)

/-! ### Fixpoint lemmas for the second merge application (claim C2) -/

theorem setRaw_preserve {ts : Tags} {u t : Tag} (hne : u.key ≠ t.key)
    (hc : ∃ x ∈ ts, x.key = t.key) (hh : ∀ x ∈ ts, x.key = t.key → x = t) :
    (∃ x ∈ Tags.setRaw ts u, x.key = t.key) ∧
      ∀ x ∈ Tags.setRaw ts u, x.key = t.key → x = t := by
  constructor
  · obtain ⟨y, hy, hk⟩ := hc
    unfold Tags.setRaw
    split
    · refine ⟨y, List.mem_map.mpr ⟨y, hy, ?_⟩, hk⟩
      rw [if_neg (show ¬(y.key = u.key) from fun h => hne (h ▸ hk))]
    · exact ⟨y, List.mem_append.mpr (Or.inl hy), hk⟩
  · intro x hx hk
    rcases mem_setRaw hx with h1 | h2
    · exact hh x h1 hk
    · exact absurd (h2 ▸ hk) hne

theorem setRaw_id_of_holds {ts : Tags} {t : Tag}
    (hc : ∃ x ∈ ts, x.key = t.key) (hh : ∀ x ∈ ts, x.key = t.key → x = t) :
    Tags.setRaw ts t = ts := by
  unfold Tags.setRaw
  obtain ⟨y, hy, hk⟩ := hc
  rw [if_pos (List.any_eq_true.mpr ⟨y, hy, decide_eq_true hk⟩)]
  have hmap : List.map (fun u => if u.key = t.key then t else u) ts = List.map id ts := by
    apply List.map_congr_left
    intro a ha
    by_cases hak : a.key = t.key
    · rw [if_pos hak]
      exact (hh a ha hak).symm
    · rw [if_neg hak]
      rfl
  rw [hmap, List.map_id]

theorem foldl_setRaw_preserve {t : Tag} :
    ∀ (l : List Tag), (∀ u ∈ l, u.key ≠ t.key) → ∀ {A : Tags},
    (∃ x ∈ A, x.key = t.key) → (∀ x ∈ A, x.key = t.key → x = t) →
    (∃ x ∈ l.foldl Tags.setRaw A, x.key = t.key) ∧
      ∀ x ∈ l.foldl Tags.setRaw A, x.key = t.key → x = t := by
  intro l
  induction l with
  | nil => intro _ A hc hh; exact ⟨hc, hh⟩
  | cons u rest ih =>
    intro hl A hc hh
    obtain ⟨hc2, hh2⟩ := setRaw_preserve (hl u (List.mem_cons_self u rest)) hc hh
    exact ih (fun v hv => hl v (List.mem_cons_of_mem u hv)) hc2 hh2

/-- Applying a duplicate-keyed-free plan twice by `setRaw` is the same as
applying it once. -/
theorem applyPlan_idem :
    ∀ (sp : Tags), ((sp.map Tag.key).Nodup) → ∀ (ts : Tags),
      List.foldl Tags.setRaw (List.foldl Tags.setRaw ts sp) sp =
        List.foldl Tags.setRaw ts sp := by
  intro sp
  induction sp with
  | nil => intro _ ts; rfl
  | cons u rest ih =>
    intro hnd ts
    have hnotin : u.key ∉ rest.map Tag.key := (List.nodup_cons.mp hnd).1
    have hndr : (rest.map Tag.key).Nodup := (List.nodup_cons.mp hnd).2
    have hkne : ∀ v ∈ rest, v.key ≠ u.key := fun v hv hh =>
      hnotin (hh ▸ List.mem_map_of_mem Tag.key hv)
    simp only [List.foldl_cons]
    have hpres := foldl_setRaw_preserve rest hkne
      (@setRaw_contains ts u) (@setRaw_holds ts u)
    rw [setRaw_id_of_holds hpres.1 hpres.2]
    exact ih hndr (Tags.setRaw ts u)

theorem mem_foldl_setRaw :
    ∀ (sp ts : Tags) (x : Tag), x ∈ List.foldl Tags.setRaw ts sp → x ∈ ts ∨ x ∈ sp := by
  intro sp
  induction sp with
  | nil => intro ts x h; exact Or.inl h
  | cons u rest ih =>
    intro ts x h
    rcases ih (Tags.setRaw ts u) x h with h1 | h2
    · rcases mem_setRaw h1 with h3 | h4
      · exact Or.inl h3
      · exact Or.inr (h4 ▸ List.mem_cons_self u rest)
    · exact Or.inr (List.mem_cons_of_mem u h2)

theorem mergeSortedInto_ok :
    ∀ (sp old : Tags), (∀ u ∈ sp, u.key ≠ []) →
      mergeSortedInto old sp = .ok (List.foldl Tags.setRaw old sp) := by
  intro sp
  induction sp with
  | nil => intro old _; rfl
  | cons u rest ih =>
    intro old hk
    simp only [mergeSortedInto]
    unfold Tags.setE
    rw [if_neg (hk u (List.mem_cons_self u rest))]
    dsimp only
    exact ih (Tags.setRaw old u) (fun v hv => hk v (List.mem_cons_of_mem u hv))

theorem tagText_head {t : Tag} {k0 : Char} {kr : Str} (hkey : t.key = k0 :: kr) :
    (Tag.text t).head? = some k0 := by
  unfold Tag.text
  split <;> rw [hkey] <;> simp

theorem serialize_head_valid :
    ∀ (ts : Tags), (∀ t ∈ ts, wfTag t = true) →
      ∀ c, (Tags.serialize ts).head? = some c → validTagKeyChar c = true := by
  intro ts hwf c hc
  cases ts with
  | nil => cases hc
  | cons t rest =>
    have hwt := wfTag_parts (hwf t (List.mem_cons_self t rest))
    obtain ⟨k0, kr, hkey⟩ := List.exists_cons_of_ne_nil hwt.1
    have hk0 : validTagKeyChar k0 = true :=
      List.all_eq_true.mp hwt.2.1 k0 (hkey ▸ List.mem_cons_self k0 kr)
    cases rest with
    | nil =>
      rw [show Tags.serialize [t] = Tag.text t from rfl, tagText_head hkey] at hc
      cases hc
      exact hk0
    | cons r rs =>
      rw [show Tags.serialize (t :: r :: rs) =
        Tag.text t ++ ' ' :: Tags.serialize (r :: rs) from rfl,
        List.head?_append, tagText_head hkey] at hc
      cases hc
      exact hk0

theorem getLast?_append_some {α : Type} (l1 : List α) {l2 : List α} {c : α}
    (h : l2.getLast? = some c) : (l1 ++ l2).getLast? = some c := by
  rw [List.getLast?_append, h]
  rfl

theorem tagText_last (t : Tag) : (Tag.text t).getLast? = some quoteChar := by
  unfold Tag.text
  split <;> exact List.getLast?_concat _

theorem serialize_last_quote :
    ∀ (ts : Tags), ts ≠ [] → (Tags.serialize ts).getLast? = some quoteChar := by
  intro ts
  induction ts with
  | nil => intro h; cases h rfl
  | cons t rest ih =>
    intro _
    cases rest with
    | nil => exact tagText_last t
    | cons r rs =>
      show (Tag.text t ++ ' ' :: Tags.serialize (r :: rs)).getLast? = some quoteChar
      refine getLast?_append_some _ ?_
      rw [show (' ' :: Tags.serialize (r :: rs) : Str) =
        [' '] ++ Tags.serialize (r :: rs) from rfl]
      exact getLast?_append_some _ (ih (by simp))

/-- Stripping the backtick wrapper the merge writes gives back the
serialized text, provided that text neither starts nor ends with a
backtick. -/
theorem trim_wrap (s : Str)
    (hh : ∀ c, s.head? = some c → ¬(c = backtickChar))
    (hl : ∀ c, s.getLast? = some c → ¬(c = backtickChar)) :
    trimBackticks (backtickChar :: s ++ [backtickChar]) = s := by
  cases s with
  | nil => decide
  | cons c0 s' =>
    unfold trimBackticks
    have hc0 : ¬(c0 = backtickChar) := hh c0 rfl
    have h1 : List.dropWhile (fun c => decide (c = backtickChar))
        (backtickChar :: (c0 :: s') ++ [backtickChar]) = (c0 :: s') ++ [backtickChar] := by
      rw [show (backtickChar :: (c0 :: s') ++ [backtickChar] : Str) =
        backtickChar :: ((c0 :: s') ++ [backtickChar]) from rfl]
      rw [List.dropWhile_cons_of_pos (by simp), List.cons_append,
        List.dropWhile_cons_of_neg (by simpa using hc0), ← List.cons_append]
    rw [h1]
    rw [show ((c0 :: s') ++ [backtickChar] : Str).reverse =
      backtickChar :: (c0 :: s').reverse from by simp]
    rw [List.dropWhile_cons_of_pos (by simp)]
    obtain ⟨cl, hcl⟩ : ∃ cl, (c0 :: s').getLast? = some cl :=
      ⟨(c0 :: s').getLast (by simp), List.getLast?_eq_getLast _ _⟩
    have hrevhead : (c0 :: s').reverse.head? = some cl := by
      rw [List.head?_reverse]
      exact hcl
    obtain ⟨rev2, hrev⟩ : ∃ rev2, (c0 :: s').reverse = cl :: rev2 := by
      cases hr : (c0 :: s').reverse with
      | nil => rw [hr] at hrevhead; cases hrevhead
      | cons a b =>
        rw [hr] at hrevhead
        cases hrevhead
        exact ⟨b, rfl⟩
    rw [hrev, List.dropWhile_cons_of_neg (by simpa using hl cl hcl), ← hrev,
      List.reverse_reverse]

/-- Evaluating one merge of a field's tag literal. -/
theorem mergeFieldTag_eval (v : Str) (p old : Tags)
    (hpv : parseTags (trimBackticks v) = .ok old)
    (hkeys : ∀ u ∈ sortTags p, u.key ≠ []) :
    mergeFieldTag v p = .ok
      (backtickChar :: Tags.serialize (List.foldl Tags.setRaw old (sortTags p))
        ++ [backtickChar],
       decide (Tags.serialize old ≠
         Tags.serialize (List.foldl Tags.setRaw old (sortTags p)))) := by
  unfold mergeFieldTag mergePlanned
  rw [hpv]
  dsimp only
  rw [mergeSortedInto_ok (sortTags p) old hkeys]

/-- The core of idempotence: merging a well-formed plan into a well-formed
tag literal produces a literal that a second merge maps to itself with the
change flag false. -/
theorem mergeFieldTag_idem (v : Str) (p : Tags)
    (hp : wfTags p = true) (hv : wfTagText v = true) :
    ∃ v1 ch, mergeFieldTag v p = .ok (v1, ch) ∧ mergeFieldTag v1 p = .ok (v1, false) := by
  rw [wfTags, Bool.and_eq_true, decide_eq_true_eq] at hp
  have hallp : ∀ u ∈ p, wfTag u = true := List.all_eq_true.mp hp.1
  have hspwf : ∀ u ∈ sortTags p, wfTag u = true := fun u hu =>
    hallp u (mem_sortTags.mp hu)
  have hspkeys : ∀ u ∈ sortTags p, u.key ≠ [] := fun u hu => (wfTag_parts (hspwf u hu)).1
  have hspnd : ((sortTags p).map Tag.key).Nodup :=
    ((sortTags_perm p).map Tag.key).nodup_iff.mpr hp.2
  unfold wfTagText at hv
  cases hpv : parseTags (trimBackticks v) with
  | error e =>
    rw [hpv] at hv
    cases hv
  | ok old =>
    rw [hpv] at hv
    have hold : ∀ u ∈ old, wfTag u = true := List.all_eq_true.mp hv
    have hMwf : ∀ u ∈ List.foldl Tags.setRaw old (sortTags p), wfTag u = true := by
      intro u hu
      rcases mem_foldl_setRaw (sortTags p) old u hu with h1 | h2
      · exact hold u h1
      · exact hspwf u h2
    refine ⟨_, _, mergeFieldTag_eval v p old hpv hspkeys, ?_⟩
    have htrim : trimBackticks (backtickChar ::
        Tags.serialize (List.foldl Tags.setRaw old (sortTags p)) ++ [backtickChar]) =
        Tags.serialize (List.foldl Tags.setRaw old (sortTags p)) := by
      apply trim_wrap
      · intro c hc
        exact (validTagKeyChar_spec (serialize_head_valid _ hMwf c hc)).2.2
      · intro c hc
        have hne : List.foldl Tags.setRaw old (sortTags p) ≠ [] := by
          intro hM
          rw [hM] at hc
          cases hc
        rw [serialize_last_quote _ hne] at hc
        cases hc
        decide
    have hparse2 : parseTags (trimBackticks (backtickChar ::
        Tags.serialize (List.foldl Tags.setRaw old (sortTags p)) ++ [backtickChar])) =
        .ok (List.foldl Tags.setRaw old (sortTags p)) := by
      rw [htrim]
      exact parse_serialize _ hMwf
    have h2 := mergeFieldTag_eval _ p _ hparse2 hspkeys
    rw [applyPlan_idem (sortTags p) hspnd old] at h2
    rw [show decide (Tags.serialize (List.foldl Tags.setRaw old (sortTags p)) ≠
      Tags.serialize (List.foldl Tags.setRaw old (sortTags p))) = false from by simp] at h2
    exact h2

theorem lookupMap_all {α : Type} {P : Str × α → Bool} {m : List (Str × α)} {k : Str}
    {v : α} (hw : m.all P = true) (h : lookupMap m k = some v) :
    ∃ kv ∈ m, kv.2 = v ∧ P kv = true := by
  obtain ⟨pair, hfind, hv⟩ := Option.map_eq_some'.mp h
  exact ⟨pair, List.mem_of_find?_eq_some hfind, hv, List.all_eq_true.mp hw pair
    (List.mem_of_find?_eq_some hfind)⟩

theorem reTagsNames_single_none {plan : FieldTagsMap} {n : Str} (tagVal : Option Str)
    (hl : lookupMap plan n = none) :
    reTagsNames plan [n] tagVal = .ok (tagVal, false) := by
  unfold reTagsNames
  cases hll : lookupMap plan n with
  | none => rfl
  | some p2 =>
    rw [hll] at hl
    cases hl

theorem reTagsNames_single_some {plan : FieldTagsMap} {n : Str} {p : Tags}
    (tagVal : Option Str) {v : Str} {ch : Bool}
    (hl : lookupMap plan n = some p)
    (hm : mergeFieldTag (tagVal.getD []) p = .ok (v, ch)) :
    reTagsNames plan [n] tagVal = .ok (some v, ch) := by
  unfold reTagsNames
  cases hll : lookupMap plan n with
  | none =>
    rw [hll] at hl
    cases hl
  | some p2 =>
    rw [hll] at hl
    cases hl
    dsimp only
    rw [hm]
    dsimp only
    rw [show reTagsNames plan [] (some v) = .ok (some v, false) from rfl]
    dsimp only
    rw [Bool.or_false]

theorem reTagsField_eval {plan : FieldTagsMap} (names : List Str) (tag : Option Str)
    {t2 : Option Str} {ch : Bool} (h : reTagsNames plan names tag = .ok (t2, ch)) :
    reTagsField plan ⟨names, tag⟩ = .ok (⟨names, t2⟩, ch) := by
  unfold reTagsField
  cases hh : reTagsNames plan names tag with
  | error e =>
    rw [hh] at h
    cases h
  | ok pr =>
    obtain ⟨a, b⟩ := pr
    rw [hh] at h
    cases h
    rfl

/-- One field is idempotent under re-tagging: the output field is a
fixpoint reported unchanged. -/
theorem reTagsField_idem {plan : FieldTagsMap} {f f1 : AstField} {ch : Bool}
    (hp : wfFieldTagsMap plan = true)
    (hn : f.names.length ≤ 1)
    (hwf : (match f.tag with | some v => wfTagText v | none => true) = true)
    (h1 : reTagsField plan f = .ok (f1, ch)) :
    reTagsField plan f1 = .ok (f1, false) := by
  obtain ⟨names, tag⟩ := f
  cases names with
  | nil =>
    have heval : reTagsField plan ⟨[], tag⟩ = .ok (⟨[], tag⟩, false) :=
      reTagsField_eval [] tag rfl
    rw [heval] at h1
    cases h1
    exact heval
  | cons n ns =>
    cases ns with
    | cons m ms => simp at hn
    | nil =>
      cases hl : lookupMap plan n with
      | none =>
        have heval : reTagsField plan ⟨[n], tag⟩ = .ok (⟨[n], tag⟩, false) :=
          reTagsField_eval [n] tag (reTagsNames_single_none tag hl)
        rw [heval] at h1
        cases h1
        exact reTagsField_eval [n] tag (reTagsNames_single_none tag hl)
      | some p =>
        have hwp : wfTags p = true := by
          obtain ⟨kv, _, hv, hP⟩ := lookupMap_all hp hl
          exact hv ▸ hP
        have htext : wfTagText (tag.getD []) = true := by
          cases tag with
          | some v => exact hwf
          | none => decide
        obtain ⟨v1, ch1, hm1, hm2⟩ := mergeFieldTag_idem (tag.getD []) p hwp htext
        have heval1 : reTagsField plan ⟨[n], tag⟩ = .ok (⟨[n], some v1⟩, ch1) :=
          reTagsField_eval [n] tag (reTagsNames_single_some tag hl hm1)
        rw [heval1] at h1
        cases h1
        exact reTagsField_eval [n] (some v1)
          (reTagsNames_single_some (some v1) hl (by simpa using hm2))

/-- A field list is idempotent under re-tagging. -/
theorem reTagsFields_idem {plan : FieldTagsMap} (hp : wfFieldTagsMap plan = true) :
    ∀ (fields fields1 : List AstField) (ch : Bool),
      (∀ f ∈ fields, f.names.length ≤ 1) →
      (∀ f ∈ fields, (match f.tag with | some v => wfTagText v | none => true) = true) →
      reTagsFields plan fields = .ok (fields1, ch) →
      reTagsFields plan fields1 = .ok (fields1, false) := by
  intro fields
  induction fields with
  | nil =>
    intro fields1 ch _ _ h1
    cases h1
    rfl
  | cons f rest ih =>
    intro fields1 ch hn hwf h1
    simp only [reTagsFields] at h1
    cases hrf : reTagsField plan f with
    | error e => rw [hrf] at h1; cases h1
    | ok pr =>
      obtain ⟨f1, ch1⟩ := pr
      rw [hrf] at h1
      cases hrr : reTagsFields plan rest with
      | error e => rw [hrr] at h1; cases h1
      | ok pr2 =>
        obtain ⟨rest1, ch2⟩ := pr2
        rw [hrr] at h1
        cases h1
        have hf2 := reTagsField_idem hp (hn f (List.mem_cons_self f rest))
          (hwf f (List.mem_cons_self f rest)) hrf
        have hr2 := ih rest1 ch2 (fun g hg => hn g (List.mem_cons_of_mem f hg))
          (fun g hg => hwf g (List.mem_cons_of_mem f hg)) hrr
        simp only [reTagsFields]
        rw [hf2, hr2]
        rfl

/-- The declaration list is idempotent under re-tagging. -/
theorem reTagsDecls_idem {tags : StructTags} (hptags : wfStructTags tags = true) :
    ∀ (decls decls1 : List Decl) (ch : Bool),
      singleNamesDecls decls = true → wfDeclTags decls = true →
      reTagsDecls tags decls = .ok (decls1, ch) →
      reTagsDecls tags decls1 = .ok (decls1, false) := by
  intro decls
  induction decls with
  | nil =>
    intro decls1 ch _ _ h1
    cases h1
    rfl
  | cons d rest ih =>
    intro decls1 ch hsn hwf h1
    rw [singleNamesDecls, List.all_cons, Bool.and_eq_true] at hsn
    rw [wfDeclTags, List.all_cons, Bool.and_eq_true] at hwf
    cases d with
    | other =>
      simp only [reTagsDecls] at h1 ⊢
      cases hrr : reTagsDecls tags rest with
      | error e => rw [hrr] at h1; cases h1
      | ok pr =>
        obtain ⟨r1, ch2⟩ := pr
        rw [hrr] at h1
        cases h1
        have hr2 := ih r1 _ hsn.2 hwf.2 hrr
        simp only [reTagsDecls]
        rw [hr2]
    | structDecl s =>
      simp only [reTagsDecls] at h1
      cases hl : lookupMap tags s.name with
      | none =>
        rw [hl] at h1
        cases hrr : reTagsDecls tags rest with
        | error e => rw [hrr] at h1; cases h1
        | ok pr =>
          obtain ⟨r1, ch2⟩ := pr
          rw [hrr] at h1
          cases h1
          have hr2 := ih r1 _ hsn.2 hwf.2 hrr
          simp only [reTagsDecls]
          rw [hl, hr2]
      | some plan =>
        rw [hl] at h1
        dsimp only at h1
        have hwplan : wfFieldTagsMap plan = true := by
          obtain ⟨kv, _, hv, hP⟩ := lookupMap_all hptags hl
          exact hv ▸ hP
        cases hrf : reTagsFields plan s.fields with
        | error e => rw [hrf] at h1; cases h1
        | ok pr =>
          obtain ⟨fs1, ch1⟩ := pr
          rw [hrf] at h1
          cases hrr : reTagsDecls tags rest with
          | error e => rw [hrr] at h1; cases h1
          | ok pr2 =>
            obtain ⟨r1, ch2⟩ := pr2
            rw [hrr] at h1
            cases h1
            have hfs2 := reTagsFields_idem hwplan s.fields fs1 ch1
              (by simpa using hsn.1) (by simpa using hwf.1) hrf
            have hr2 := ih r1 ch2 hsn.2 hwf.2 hrr
            simp only [reTagsDecls]
            rw [show lookupMap tags (StructDecl.mk s.name fs1).name = some plan from hl]
            dsimp only
            rw [hfs2, hr2]
            rfl

/-- C2 amended: for well-formed inputs — plans whose entries have nonempty
valid keys without duplicates and escape-free values, generated-code-shaped
declarations (at most one name per field), and existing annotations parsing
into equally well-formed entries — applying the merge a second time with
the same plan returns the first run's output unchanged and reports
changed = false. -/
theorem c2_merge_idempotent_wf (decls d1 : List Decl) (tags : StructTags) (c : Bool)
    (hplan : wfStructTags tags = true)
    (hnames : singleNamesDecls decls = true)
    (hwf : wfDeclTags decls = true)
    (h1 : ReTagsWithCheck decls tags = .ok (d1, c)) :
    ReTagsWithCheck d1 tags = .ok (d1, false) :=
  reTagsDecls_idem hplan decls d1 c hnames hwf h1

/-- C2 counterexample: on a plan whose single entry carries the key
`a b` (producible by an `auto_tags` option), the first merge succeeds and
writes the literal backtick a b:\x22x\x22 backtick, but the second merge on the
first run's output aborts with a parse error instead of returning the
same output with changed = false: the merge is not idempotent for every
source tree and plan. -/
theorem c2_counterexample :
    ReTagsWithCheck c2CxDecls c2CxTags = .ok (c2CxDecls1, true) ∧
    ReTagsWithCheck c2CxDecls1 c2CxTags =
      .error ['b', 'a', 'd', ' ', 't', 'a', 'g', ' ', 's', 'y', 'n', 't', 'a', 'x'] := by
  decide

/-- C2 witness: the amended idempotence theorem applied to a concrete
well-formed run (struct S, field F, plan query x). -/
theorem c2_witness :
    ReTagsWithCheck c2WitDecls1 c2WitTags = .ok (c2WitDecls1, false) :=
  c2_merge_idempotent_wf c2CxDecls c2WitDecls1 c2WitTags true
    (by decide) (by decide) (by decide) (by decide)

end Sphere
